import Mathlib

/-!
Verification development for the cisco-mcp command channel and protocol
parsers.  The Python source (cisco_mcp/ssh_client.py and
cisco_mcp/parsers/) is shallowly embedded: strings are lists of
characters, each regular expression of the source is realised as an
explicit deterministic matcher (the patterns involved only combine
character classes whose adjacent classes are disjoint, so greedy
matching without backtracking coincides with the regex semantics; the
one lookahead pattern is modelled with an explicit existential over
split points), and the asynchronous session/pool code is modelled as
explicit state passing with outcome oracles for the transport.
-/

namespace CiscoMcp

/-! ## Python-style character and string primitives -/

/-- Python whitespace class (ASCII part of the re module's backslash-s). -/
def pySpace (c : Char) : Bool :=
  c = ' ' || c = '\t' || c = '\n' || c = '\x0d' ||
  c = Char.ofNat 11 || c = Char.ofNat 12

/-- ASCII decimal digit, the backslash-d class. -/
def pyDigit (c : Char) : Bool := c.isDigit

/-- str.strip(): drop leading and trailing whitespace. -/
def pyStrip (l : List Char) : List Char :=
  ((l.dropWhile pySpace).reverse.dropWhile pySpace).reverse

/-- str.lower(), restricted to the ASCII case mapping. -/
def pyLower (l : List Char) : List Char := l.map Char.toLower

/-- str.upper(), restricted to the ASCII case mapping. -/
def pyUpper (l : List Char) : List Char := l.map Char.toUpper

/-- Helper for str.splitlines: accumulates the current line (reversed). -/
def splitAux : List Char → List Char → List (List Char)
  | [], acc => if acc.isEmpty then [] else [acc.reverse]
  | '\n' :: r, acc => acc.reverse :: splitAux r []
  | '\x0d' :: '\n' :: r, acc => acc.reverse :: splitAux r []
  | '\x0d' :: r, acc => acc.reverse :: splitAux r []
  | c :: r, acc => splitAux r (c :: acc)

/-- str.splitlines() over the line terminators that occur in this domain
(newline, carriage return, CRLF); no trailing empty line is produced. -/
def pySplitlines (l : List Char) : List (List Char) := splitAux l []

/-- Does the list start with the given literal? -/
def startsWithLit : List Char → List Char → Bool
  | [], _ => true
  | _ :: _, [] => false
  | p :: ps, c :: cs => p = c && startsWithLit ps cs

/-- Case-insensitive literal test (the keyword is given lowercased). -/
def startsWithCI : List Char → List Char → Bool
  | [], _ => true
  | _ :: _, [] => false
  | p :: ps, c :: cs => p = c.toLower && startsWithCI ps cs

/-- Greedy nonempty character-class run: the X-plus regex pieces. -/
def takeWhile1 (p : Char → Bool) (l : List Char) :
    Option (List Char × List Char) :=
  let t := l.takeWhile p
  if t.isEmpty then none else some (t, l.dropWhile p)

/-- Strip an exact literal prefix, returning the remainder. -/
def dropLit : List Char → List Char → Option (List Char)
  | [], l => some l
  | _ :: _, [] => none
  | p :: ps, c :: cs => if p = c then dropLit ps cs else none

/-- Digit characters to a natural number (the int() call on a
backslash-d-plus group). -/
def digitsToNat (ds : List Char) : Nat :=
  ds.foldl (fun a c => a * 10 + (c.toNat - 48)) 0

/-- Python int() digit body: digit groups joined by single underscores,
e.g. 1729 or 1_000; the whole list must be consumed.  The Boolean state
records whether the previous character was a digit (an underscore is
legal only between digits, and the token must end in a digit). -/
def pyIntGo : List Char → Bool → Nat → Option Nat
  | [], lastDigit, acc => if lastDigit then some acc else none
  | c :: r, lastDigit, acc =>
    if pyDigit c then pyIntGo r true (acc * 10 + (c.toNat - 48))
    else if c = '_' && lastDigit then pyIntGo r false acc
    else none

/-- Python int() digit body entry point. -/
def pyIntDigits (l : List Char) : Option Nat := pyIntGo l false 0

/-- Python int() on a whitespace-free token: optional sign, then the
digit body (the source applies it to tokens matched by
backslash-S-plus, so surrounding whitespace cannot occur). -/
def pyInt : List Char → Option Int
  | '+' :: r => (pyIntDigits r).map Int.ofNat
  | '-' :: r => (pyIntDigits r).map (fun n => -(n : Int))
  | l => (pyIntDigits l).map Int.ofNat

/-! ## Regex building blocks used by the parsers

Every parser pattern is a sequence of greedy pieces (literal, digit run,
nonspace run, whitespace run) in which each boundary separates disjoint
character classes, so the deterministic greedy parse below coincides
with the backtracking regex semantics of the source. -/

/-- A piece consumes a prefix and returns (consumed, rest). -/
abbrev Piece := List Char → Option (List Char × List Char)

/-- backslash-d-plus. -/
def digits1 : Piece := takeWhile1 pyDigit

/-- backslash-S-plus. -/
def nonspace1 : Piece := takeWhile1 (fun c => !pySpace c)

/-- backslash-s-plus. -/
def spaces1 : Piece := takeWhile1 pySpace

/-- Exact literal piece. -/
def lit (s : List Char) : Piece := fun l =>
  match dropLit s l with
  | some r => some (s, r)
  | none => none

/-- Sequencing of two pieces, concatenating what they consume. -/
def pseq (p q : Piece) : Piece := fun l =>
  match p l with
  | none => none
  | some (a, r) =>
    match q r with
    | none => none
    | some (b, r2) => some (a ++ b, r2)

/-- The dotted-quad pattern: digits, dot, digits, dot, digits, dot,
digits. -/
def matchIPv4 : Piece :=
  pseq digits1 (pseq (lit ['.']) (pseq digits1
    (pseq (lit ['.']) (pseq digits1 (pseq (lit ['.']) digits1)))))

/-! ## Data model (cisco_mcp/models.py) -/

/-- An OSPF neighbor record. -/
structure OSPFNeighbor where
  neighbor_id : String
  priority : Nat
  state : String
  dead_time : String
  address : String
  interface : String
  is_healthy : Bool
deriving Repr, DecidableEq

/-- Result of OSPF neighbor verification. -/
structure OSPFNeighborsResult where
  switch : String
  neighbors : List OSPFNeighbor
  total_count : Nat
  full_count : Nat
  problem_count : Nat
  raw_output : String
deriving Repr, DecidableEq

/-- A BGP EVPN neighbor record. -/
structure BGPNeighbor where
  neighbor_id : String
  asn : Nat
  state : String
  prefixes_received : Int
  up_time : String
  is_established : Bool
deriving Repr, DecidableEq

/-- Result of BGP EVPN verification. -/
structure BGPEVPNResult where
  switch : String
  local_asn : Nat
  neighbors : List BGPNeighbor
  total_count : Nat
  established_count : Nat
  problem_count : Nat
  raw_output : String
deriving Repr, DecidableEq

/-- An NVE (VXLAN) peer record. -/
structure NVEPeer where
  peer_ip : String
  state : String
  learn_type : String
  uptime : String
  is_up : Bool
deriving Repr, DecidableEq

/-- Result of NVE peers verification. -/
structure NVEPeersResult where
  switch : String
  peers : List NVEPeer
  total_count : Nat
  up_count : Nat
  down_count : Nat
  raw_output : String
deriving Repr, DecidableEq

/-- Error counters for an interface. -/
structure InterfaceErrors where
  name : String
  input_errors : Nat
  output_errors : Nat
  crc_errors : Nat
  input_discards : Nat
  output_discards : Nat
  has_errors : Bool
deriving Repr, DecidableEq

/-- Result of the interface error check. -/
structure InterfaceErrorsResult where
  switch : String
  interfaces : List InterfaceErrors
  interfaces_with_errors : Nat
  raw_output : String
deriving Repr, DecidableEq

/-- Result of running a command on one switch. -/
structure CommandResult where
  switch : String
  command : String
  output : String
  success : Bool
  error : Option String
deriving Repr, DecidableEq

/-! ## OSPF parser (cisco_mcp/parsers/ospf.py) -/

/-- The capture groups of the OSPF neighbor line pattern. -/
structure OspfMatch where
  neighbor_id : List Char
  priority : List Char
  state_full : List Char
  dead_time : List Char
  address : List Char
  interface : List Char
deriving Repr, DecidableEq

/-- The neighbor line pattern of parse_ospf_neighbors: dotted quad,
spaces, digits, spaces, nonspace, spaces, nonspace, spaces, dotted
quad, spaces, nonspace; anchored at the start of the (stripped) line,
trailing text ignored. -/
def ospfMatchLine (l : List Char) : Option OspfMatch :=
  match matchIPv4 l with
  | none => none
  | some (nid, r1) =>
  match spaces1 r1 with
  | none => none
  | some (_, r2) =>
  match digits1 r2 with
  | none => none
  | some (pri, r3) =>
  match spaces1 r3 with
  | none => none
  | some (_, r4) =>
  match nonspace1 r4 with
  | none => none
  | some (st, r5) =>
  match spaces1 r5 with
  | none => none
  | some (_, r6) =>
  match nonspace1 r6 with
  | none => none
  | some (dead, r7) =>
  match spaces1 r7 with
  | none => none
  | some (_, r8) =>
  match matchIPv4 r8 with
  | none => none
  | some (addr, r9) =>
  match spaces1 r9 with
  | none => none
  | some (_, r10) =>
  match nonspace1 r10 with
  | none => none
  | some (ifc, _) =>
    some ⟨nid, pri, st, dead, addr, ifc⟩

/-- Build the neighbor record from a matched line, as the match branch
of parse_ospf_neighbors does. -/
def ospfNeighborOfMatch (m : OspfMatch) : OSPFNeighbor :=
  let state :=
    if m.state_full.contains '/' then m.state_full.takeWhile (· ≠ '/')
    else m.state_full
  { neighbor_id := String.mk m.neighbor_id
    priority := digitsToNat m.priority
    state := String.mk m.state_full
    dead_time := String.mk m.dead_time
    address := String.mk m.address
    interface := String.mk m.interface
    is_healthy := decide (pyUpper state = ['F', 'U', 'L', 'L']) }

/-- parse_ospf_neighbors: scan each stripped line against the neighbor
pattern, collect records, then derive the counts from the record list. -/
def parse_ospf_neighbors (output : String) (switch_name : String) :
    OSPFNeighborsResult :=
  let neighbors := (pySplitlines output.data).filterMap
    (fun line => (ospfMatchLine (pyStrip line)).map ospfNeighborOfMatch)
  let full_count := (neighbors.filter (fun n => n.is_healthy)).length
  let problem_count := neighbors.length - full_count
  { switch := switch_name
    neighbors := neighbors
    total_count := neighbors.length
    full_count := full_count
    problem_count := problem_count
    raw_output := output }

/-- get_ospf_issues, with the issue strings built exactly as in the
source loop: one entry per unhealthy neighbor in list order, then the
no-neighbors issue when the total count is zero. -/
def get_ospf_issues (result : OSPFNeighborsResult) : List String :=
  (result.neighbors.foldl
    (fun issues n =>
      if !n.is_healthy then
        issues ++ [result.switch ++ ": OSPF neighbor " ++ n.neighbor_id ++
          " on " ++ n.interface ++ " is in " ++ n.state ++
          " state (not FULL)"]
      else issues) [])
  ++ (if result.total_count = 0 then
        [result.switch ++ ": No OSPF neighbors found"] else [])

/-! ## BGP EVPN parser (cisco_mcp/parsers/bgp.py) -/

/-- The capture groups of the BGP neighbor line pattern that the source
uses (groups 1, 3, 9 and 10; the others are matched but unused). -/
structure BgpMatch where
  neighbor_id : List Char
  asn : List Char
  up_time : List Char
  state_or_pfx : List Char
deriving Repr, DecidableEq

/-- The neighbor line pattern of parse_bgp_evpn_summary: dotted quad
then seven digit runs separated by whitespace, then two nonspace runs
(Up/Down time and State/PfxRcd), anchored at the stripped line start. -/
def bgpMatchLine (l : List Char) : Option BgpMatch :=
  match matchIPv4 l with
  | none => none
  | some (nid, r0) =>
  match pseq spaces1 digits1 r0 with      -- Version
  | none => none
  | some (_, r1) =>
  match spaces1 r1 with
  | none => none
  | some (_, r2) =>
  match digits1 r2 with                   -- AS number
  | none => none
  | some (asn, r3) =>
  match pseq spaces1 digits1 r3 with      -- MsgRcvd
  | none => none
  | some (_, r4) =>
  match pseq spaces1 digits1 r4 with      -- MsgSent
  | none => none
  | some (_, r5) =>
  match pseq spaces1 digits1 r5 with      -- TblVer
  | none => none
  | some (_, r6) =>
  match pseq spaces1 digits1 r6 with      -- InQ
  | none => none
  | some (_, r7) =>
  match pseq spaces1 digits1 r7 with      -- OutQ
  | none => none
  | some (_, r8) =>
  match pseq spaces1 nonspace1 r8 with    -- Up/Down time
  | none => none
  | some (up, r9) =>
  match pseq spaces1 nonspace1 r9 with    -- State/PfxRcd
  | none => none
  | some (st, _) =>
    some ⟨nid, asn, (up.dropWhile pySpace), (st.dropWhile pySpace)⟩

/-- Build the neighbor record from a matched line: a numeric trailing
token means the session is established with that many prefixes, any
other token is taken literally as the state. -/
def bgpNeighborOfMatch (m : BgpMatch) : BGPNeighbor :=
  match pyInt m.state_or_pfx with
  | some n =>
    { neighbor_id := String.mk m.neighbor_id
      asn := digitsToNat m.asn
      state := "Established"
      prefixes_received := n
      up_time := String.mk m.up_time
      is_established := true }
  | none =>
    { neighbor_id := String.mk m.neighbor_id
      asn := digitsToNat m.asn
      state := String.mk m.state_or_pfx
      prefixes_received := 0
      up_time := String.mk m.up_time
      is_established := false }

/-- The local AS number search: leftmost occurrence of the literal
"local AS number " followed by at least one digit, taking the maximal
digit run there (re.search of the source). -/
def bgpLocalAsn : List Char → Nat
  | [] => 0
  | c :: r =>
    match dropLit ['l','o','c','a','l',' ','A','S',' ',
                   'n','u','m','b','e','r',' '] (c :: r) with
    | some rest =>
      match digits1 rest with
      | some (ds, _) => digitsToNat ds
      | none => bgpLocalAsn r
    | none => bgpLocalAsn r

/-- parse_bgp_evpn_summary: extract the local ASN, scan each stripped
line against the neighbor pattern, and derive the counts from the
record list. -/
def parse_bgp_evpn_summary (output : String) (switch_name : String) :
    BGPEVPNResult :=
  let neighbors := (pySplitlines output.data).filterMap
    (fun line => (bgpMatchLine (pyStrip line)).map bgpNeighborOfMatch)
  let established_count :=
    (neighbors.filter (fun n => n.is_established)).length
  let problem_count := neighbors.length - established_count
  { switch := switch_name
    local_asn := bgpLocalAsn output.data
    neighbors := neighbors
    total_count := neighbors.length
    established_count := established_count
    problem_count := problem_count
    raw_output := output }

/-! ## NVE parser (cisco_mcp/parsers/nve.py) -/

/-- The capture groups of the NVE peer line pattern. -/
structure NveMatch where
  peer_ip : List Char
  state : List Char
  learn_type : List Char
  uptime : List Char
deriving Repr, DecidableEq

/-- The peer line pattern of parse_nve_peers: the literal nve followed
by digits, whitespace, dotted quad, then three nonspace runs. -/
def nveMatchLine (l : List Char) : Option NveMatch :=
  match pseq (lit ['n','v','e']) (pseq digits1 spaces1) l with
  | none => none
  | some (_, r0) =>
  match matchIPv4 r0 with
  | none => none
  | some (ip, r1) =>
  match pseq spaces1 nonspace1 r1 with
  | none => none
  | some (st, r2) =>
  match pseq spaces1 nonspace1 r2 with
  | none => none
  | some (lt, r3) =>
  match pseq spaces1 nonspace1 r3 with
  | none => none
  | some (up, _) =>
    some ⟨ip, st.dropWhile pySpace, lt.dropWhile pySpace,
          up.dropWhile pySpace⟩

/-- Build the peer record from a matched line. -/
def nvePeerOfMatch (m : NveMatch) : NVEPeer :=
  { peer_ip := String.mk m.peer_ip
    state := String.mk m.state
    learn_type := String.mk m.learn_type
    uptime := String.mk m.uptime
    is_up := decide (pyLower m.state = ['u', 'p']) }

/-- parse_nve_peers: scan each stripped line against the peer pattern
and derive the counts from the record list. -/
def parse_nve_peers (output : String) (switch_name : String) :
    NVEPeersResult :=
  let peers := (pySplitlines output.data).filterMap
    (fun line => (nveMatchLine (pyStrip line)).map nvePeerOfMatch)
  let up_count := (peers.filter (fun p => p.is_up)).length
  let down_count := peers.length - up_count
  { switch := switch_name
    peers := peers
    total_count := peers.length
    up_count := up_count
    down_count := down_count
    raw_output := output }

/-- get_nve_issues: one issue per down peer in list order, then the
no-peers issue when the total count is zero. -/
def get_nve_issues (result : NVEPeersResult) : List String :=
  (result.peers.foldl
    (fun issues p =>
      if !p.is_up then
        issues ++ [result.switch ++ ": NVE peer " ++ p.peer_ip ++
          " is " ++ p.state]
      else issues) [])
  ++ (if result.total_count = 0 then
        [result.switch ++ ": No NVE peers found"] else [])

/-! ## Interface counters parser (cisco_mcp/parsers/interface.py) -/

/-- The interface-name alternative of the counter patterns: Eth then
digits, slash, digits, optionally another slash and digits; or Po then
digits.  The optional group is taken greedily exactly when a digit
follows the second slash, which coincides with the regex semantics
because the pattern is always followed by a whitespace requirement. -/
def matchIfaceName : Piece := fun l =>
  match dropLit ['E','t','h'] l with
  | some r0 =>
    (match digits1 r0 with
     | none => none
     | some (d1, r1) =>
       match dropLit ['/'] r1 with
       | none => none
       | some r2 =>
         match digits1 r2 with
         | none => none
         | some (d2, r3) =>
           let base := ['E','t','h'] ++ d1 ++ ['/'] ++ d2
           match r3 with
           | '/' :: r4 =>
             (match digits1 r4 with
              | some (d3, r5) => some (base ++ ['/'] ++ d3, r5)
              | none => some (base, r3))
           | _ => some (base, r3))
  | none =>
    match dropLit ['P','o'] l with
    | none => none
    | some r0 =>
      match digits1 r0 with
      | none => none
      | some (d, r1) => some (['P','o'] ++ d, r1)

/-- A counter line match: the interface name and the list of matched
counter values.  The six-column pattern is tried first, then the
two-column pattern, as in the source. -/
def countersMatchLine (l : List Char) : Option (List Char × List Nat) :=
  match matchIfaceName l with
  | none => none
  | some (name, r0) =>
    let six :=
      match pseq spaces1 digits1 r0 with
      | none => none
      | some (c1, r1) =>
      match pseq spaces1 digits1 r1 with
      | none => none
      | some (c2, r2) =>
      match pseq spaces1 digits1 r2 with
      | none => none
      | some (c3, r3) =>
      match pseq spaces1 digits1 r3 with
      | none => none
      | some (c4, r4) =>
      match pseq spaces1 digits1 r4 with
      | none => none
      | some (c5, r5) =>
      match pseq spaces1 digits1 r5 with
      | none => none
      | some (c6, _) =>
        some [digitsToNat (c1.dropWhile pySpace),
              digitsToNat (c2.dropWhile pySpace),
              digitsToNat (c3.dropWhile pySpace),
              digitsToNat (c4.dropWhile pySpace),
              digitsToNat (c5.dropWhile pySpace),
              digitsToNat (c6.dropWhile pySpace)]
    match six with
    | some vals => some (name, vals)
    | none =>
      match pseq spaces1 digits1 r0 with
      | none => none
      | some (c1, r1) =>
      match pseq spaces1 digits1 r1 with
      | none => none
      | some (c2, _) =>
        some (name, [digitsToNat (c1.dropWhile pySpace),
                     digitsToNat (c2.dropWhile pySpace)])

/-- A fresh all-zero counter record, as created on first sight of an
interface name. -/
def blankInterfaceErrors (name : String) : InterfaceErrors :=
  { name := name, input_errors := 0, output_errors := 0, crc_errors := 0
    input_discards := 0, output_discards := 0, has_errors := false }

/-- Map over the entry for the given name in the insertion-ordered
association list that models the Python dict. -/
def updatePool (pool : List (String × InterfaceErrors)) (name : String)
    (f : InterfaceErrors → InterfaceErrors) :
    List (String × InterfaceErrors) :=
  pool.map (fun e => if e.1 = name then (e.1, f e.2) else e)

/-- Insert a blank record for the name unless already present
(insertion order preserved, as for a Python dict). -/
def ensureEntry (pool : List (String × InterfaceErrors)) (name : String) :
    List (String × InterfaceErrors) :=
  if (pool.lookup name).isSome then pool
  else pool ++ [(name, blankInterfaceErrors name)]

/-- The six-column branch body: each positive counter value is added to
input_errors and sets has_errors. -/
def applySixVals (vals : List Nat) (rec : InterfaceErrors) :
    InterfaceErrors :=
  vals.foldl
    (fun r val =>
      if val > 0 then
        { r with input_errors := r.input_errors + val, has_errors := true }
      else r) rec

/-- The two-column branch body: when either value is positive, their
sum is added to input_errors and has_errors is set. -/
def applyTwoVals (v1 v2 : Nat) (rec : InterfaceErrors) : InterfaceErrors :=
  if v1 > 0 || v2 > 0 then
    { rec with input_errors := rec.input_errors + (v1 + v2)
               has_errors := true }
  else rec

/-- Dispatch on which counter pattern matched: a two-value match came
from the simple pattern, anything else from the six-column pattern. -/
def applyLineVals (vals : List Nat) (rec : InterfaceErrors) :
    InterfaceErrors :=
  match vals with
  | [v1, v2] => applyTwoVals v1 v2 rec
  | _ => applySixVals vals rec

/-- One scan step of parse_interface_counters over a raw line. -/
def countersStep (pool : List (String × InterfaceErrors))
    (line : List Char) : List (String × InterfaceErrors) :=
  match countersMatchLine (pyStrip line) with
  | none => pool
  | some (nameChars, vals) =>
    let name := String.mk nameChars
    updatePool (ensureEntry pool name) name (applyLineVals vals)

/-- parse_interface_counters: fold the line scan over the output and
read the record list out of the dict in insertion order. -/
def parse_interface_counters (output : String) (switch_name : String) :
    InterfaceErrorsResult :=
  let pool := (pySplitlines output.data).foldl countersStep []
  let interface_list := pool.map Prod.snd
  { switch := switch_name
    interfaces := interface_list
    interfaces_with_errors :=
      (interface_list.filter (fun i => i.has_errors)).length
    raw_output := output }

/-- get_interface_issues: one issue per interface with errors, in list
order; there is no issue for an empty record list. -/
def get_interface_issues (result : InterfaceErrorsResult) : List String :=
  result.interfaces.foldl
    (fun issues i =>
      if i.has_errors then
        issues ++ [result.switch ++ ": Interface " ++ i.name ++
          " has errors (input: " ++ toString i.input_errors ++
          ", output: " ++ toString i.output_errors ++ ")"]
      else issues) []

/-! ## Command validator (cisco_mcp/ssh_client.py) -/

/-- Allowed read-only command starts (ALLOWED_COMMAND_PREFIXES). -/
def allowedCommandStarts : List (List Char) :=
  [['s','h','o','w',' '],
   ['d','i','s','p','l','a','y',' '],
   ['d','i','r',' '],
   ['p','w','d'],
   ['t','e','r','m','i','n','a','l',' ','l','e','n','g','t','h'],
   ['t','e','r','m','i','n','a','l',' ','w','i','d','t','h']]

/-- The caret-no-backslash-s-plus blocked pattern: the literal no
followed by at least one whitespace character. -/
def blockedNoPattern (l : List Char) : Bool :=
  match dropLit ['n','o'] l with
  | some (c :: _) => pySpace c
  | _ => false

/-- The caret-clear blocked pattern with its negative lookahead
carving out counters: the regex matches when for some nonempty prefix
of the whitespace run after the literal clear, the remainder does not
start with the literal counters (the regex engine tries every split of
the greedy whitespace run). -/
def blockedClearPattern (l : List Char) : Bool :=
  match dropLit ['c','l','e','a','r'] l with
  | none => false
  | some rest =>
    let ws := rest.takeWhile pySpace
    (List.range ws.length).any (fun j =>
      !startsWithLit ['c','o','u','n','t','e','r','s'] (rest.drop (j + 1)))

/-- BLOCKED_COMMAND_PATTERNS as one disjunction, in source order. -/
def blockedAny (l : List Char) : Bool :=
  startsWithLit ['c','o','n','f'] l ||
  startsWithLit ['c','o','p','y'] l ||
  startsWithLit ['d','e','l','e','t','e'] l ||
  startsWithLit ['w','r','i','t','e'] l ||
  startsWithLit ['r','e','l','o','a','d'] l ||
  startsWithLit ['s','h','u','t','d','o','w','n'] l ||
  blockedNoPattern l ||
  blockedClearPattern l ||
  startsWithLit ['d','e','b','u','g'] l ||
  startsWithLit ['u','n','d','e','b','u','g'] l

/-- The two ways validate_command can reject, carrying the offending
command as the source's messages do. -/
inductive ValError where
  | notAllowed (command : String)
  | blockedPattern (command : String)
deriving Repr, DecidableEq

/-- Does the normalised command begin with an allowed start? -/
def allowedByStart (cmd : List Char) : Bool :=
  allowedCommandStarts.any (fun p => startsWithLit p cmd)

/-- validate_command: strip and lowercase, reject unless an allowed
start matches, then reject if any blocked pattern matches. -/
def validate_command (command : String) : Except ValError Unit :=
  let cmd := pyLower (pyStrip command.data)
  if !allowedByStart cmd then
    Except.error (ValError.notAllowed command)
  else if blockedAny cmd then
    Except.error (ValError.blockedPattern command)
  else
    Except.ok ()

/-! ## Redactor (mask_sensitive_output of cisco_mcp/ssh_client.py)

Each of the five substitution patterns has the shape: keyword
(case-insensitive), a separator region, then a nonspace token (group 2)
that the substitution replaces by eight asterisks, keeping group 1.
re.sub scans left to right and replaces non-overlapping matches; the
scanner below advances one character on failure and jumps over the
replacement on success, which is the same semantics (all the involved
subpatterns pair disjoint character classes at their boundaries, so
greedy matching needs no backtracking). -/

/-- The replacement mask: eight asterisks. -/
def maskStr : List Char := List.replicate 8 '*'

/-- Case-insensitive keyword strip: returns the consumed original
characters (case preserved, as group 1 keeps them) and the rest. -/
def dropKw : List Char → List Char → Option (List Char × List Char)
  | [], l => some ([], l)
  | _ :: _, [] => none
  | k :: ks, c :: cs =>
    if k = c.toLower then
      match dropKw ks cs with
      | some (a, r) => some (c :: a, r)
      | none => none
    else none

/-- Separator of the password/key/secret patterns:
backslash-s-star, one of equals or colon, backslash-s-star. -/
def gapEq : Piece := fun l =>
  let sp1 := l.takeWhile pySpace
  match l.dropWhile pySpace with
  | c :: r2 =>
    if c = '=' || c = ':' then
      some (sp1 ++ c :: r2.takeWhile pySpace, r2.dropWhile pySpace)
    else none
  | [] => none

/-- Separator of the md5 pattern: backslash-s-plus, digits,
backslash-s-plus. -/
def gapMd5 : Piece :=
  pseq spaces1 (pseq digits1 spaces1)

/-- Separator of the community pattern: backslash-s-plus. -/
def gapSp : Piece := spaces1

/-- A whole pattern: keyword, separator, then the group-2 token
(maximal nonempty nonspace run).  Returns (group 1, group 2, rest). -/
def kwMatch (kw : List Char) (gap : Piece) (l : List Char) :
    Option (List Char × List Char × List Char) :=
  match dropKw kw l with
  | none => none
  | some (kc, r1) =>
    match gap r1 with
    | none => none
    | some (g, r2) =>
      match nonspace1 r2 with
      | none => none
      | some (tok, r3) => some (kc ++ g, tok, r3)

/-- The match type of a substitution pattern. -/
abbrev SubMatcher := List Char → Option (List Char × List Char × List Char)

/-- Guarded match step: accepts a match only together with the
(always-true for the matchers used here, proved below) consumption
facts that make the scan well founded. -/
def tryMatch (m : SubMatcher) (l : List Char) :
    Option { x : List Char × List Char × List Char //
             l = x.1 ++ x.2.1 ++ x.2.2 ∧ x.2.1 ≠ [] } :=
  match m l with
  | some (g1, g2, r) =>
    if hc : l = g1 ++ g2 ++ r ∧ g2 ≠ [] then some ⟨(g1, g2, r), hc⟩
    else none
  | none => none

/-- One re.sub pass: find each leftmost match, emit group 1 and the
mask in its place, and continue after the match. -/
def subScan (m : SubMatcher) : List Char → List Char
  | [] => []
  | c :: cs =>
    match tryMatch m (c :: cs) with
    | some ⟨(g1, g2, rest), hp⟩ => g1 ++ maskStr ++ subScan m rest
    | none => c :: subScan m cs
termination_by l => l.length
decreasing_by
  · obtain ⟨hl, hne⟩ := hp
    have h1 := congrArg List.length hl
    have h2 : 0 < g2.length := List.length_pos.mpr hne
    simp only [List.length_cons, List.length_append] at h1 ⊢
    omega
  · simp

/-- The five pattern keywords, lowercased. -/
def kwPassword : List Char := ['p','a','s','s','w','o','r','d']

/-- key. -/
def kwKey : List Char := ['k','e','y']

/-- secret. -/
def kwSecret : List Char := ['s','e','c','r','e','t']

/-- md5. -/
def kwMd5 : List Char := ['m','d','5']

/-- community. -/
def kwCommunity : List Char := ['c','o','m','m','u','n','i','t','y']

/-- The password pattern matcher. -/
def mPassword : SubMatcher := kwMatch kwPassword gapEq

/-- The key pattern matcher. -/
def mKey : SubMatcher := kwMatch kwKey gapEq

/-- The secret pattern matcher. -/
def mSecret : SubMatcher := kwMatch kwSecret gapEq

/-- The md5 pattern matcher. -/
def mMd5 : SubMatcher := kwMatch kwMd5 gapMd5

/-- The community pattern matcher. -/
def mCommunity : SubMatcher := kwMatch kwCommunity gapSp

/-- mask_sensitive_output: the five substitutions applied in source
order (password, key, secret, md5, community). -/
def mask_sensitive_output (output : String) : String :=
  String.mk (subScan mCommunity (subScan mMd5 (subScan mSecret
    (subScan mKey (subScan mPassword output.data)))))

/-- Does any of the five patterns match anywhere in the text?  Used to
state that text without sensitive-key patterns is left unchanged. -/
def hasSensitiveMatch (l : List Char) : Bool :=
  (List.range l.length).any (fun n =>
    ((mPassword (l.drop n)).isSome || (mKey (l.drop n)).isSome ||
     (mSecret (l.drop n)).isSome || (mMd5 (l.drop n)).isSome ||
     (mCommunity (l.drop n)).isSome))

/-! ## Device session and pool (cisco_mcp/ssh_client.py)

The asynchronous transport is modelled by outcome oracles: what the
key-file check, the connection attempt and a command run would produce.
Session state carries the connection flag plus counters of transport
calls, so that "no transport call happened" is expressible. -/

/-- The error taxonomy of ssh_client.py. -/
inductive ExecError where
  | connError (msg : String)
  | cmdError (msg : String)
  | invalidCommand (e : ValError)
deriving Repr, DecidableEq

/-- The message carried by an error, as str(e) produces it. -/
def ExecError.message : ExecError → String
  | .connError m => m
  | .cmdError m => m
  | .invalidCommand (.notAllowed c) =>
      "Command " ++ c ++ " is not allowed. Only show commands are permitted."
  | .invalidCommand (.blockedPattern c) =>
      "Command " ++ c ++ " matches blocked pattern and is not allowed."

/-- What one transport run returns: exit status, stdout, stderr. -/
structure RunOutput where
  exit_status : Int
  stdout : String
  stderr : String
deriving Repr, DecidableEq

/-- Transport oracle for one device: whether the key file exists, what
a connection attempt yields, and what running a command yields (an
error models an asyncssh failure or a timeout). -/
structure Transport where
  keyExists : Bool
  connectOutcome : Except String Unit
  runOutcome : String → Except String RunOutput

/-- Observable session state: the connection flag plus counters of
transport-level calls (connection attempts and command runs). -/
structure SessionState where
  connected : Bool
  connectCalls : Nat
  runCalls : Nat
deriving Repr, DecidableEq

/-- A fresh, unconnected session. -/
def freshSession : SessionState :=
  { connected := false, connectCalls := 0, runCalls := 0 }

/-- CiscoSSHClient.connect: a no-op when connected; a missing key file
fails before any network attempt; otherwise one connection attempt is
made and failure is surfaced as a connection error. -/
def CiscoSSHClient.connect (t : Transport) (s : SessionState) :
    Except ExecError Unit × SessionState :=
  if s.connected then (Except.ok (), s)
  else if !t.keyExists then
    (Except.error (ExecError.connError "SSH key file not found"), s)
  else
    match t.connectOutcome with
    | Except.ok _ =>
      (Except.ok (), { s with connected := true
                              connectCalls := s.connectCalls + 1 })
    | Except.error m =>
      (Except.error (ExecError.connError m),
       { s with connectCalls := s.connectCalls + 1 })

/-- The body of execute_command after validation: lazy connect, then
one transport run of the pagination-prefixed command, surfacing a
failing exit status with error text as a command error. -/
def CiscoSSHClient.executeConnected (t : Transport) (command : String)
    (s : SessionState) : Except ExecError String × SessionState :=
  let afterConnect :=
    if !s.connected then CiscoSSHClient.connect t s else (Except.ok (), s)
  match afterConnect with
  | (Except.error e, s1) => (Except.error e, s1)
  | (Except.ok _, s1) =>
    let full_command := "terminal length 0 ; " ++ command
    match t.runOutcome full_command with
    | Except.error m =>
      (Except.error (ExecError.cmdError m),
       { s1 with runCalls := s1.runCalls + 1 })
    | Except.ok out =>
      let s2 := { s1 with runCalls := s1.runCalls + 1 }
      if out.exit_status ≠ 0 ∧ out.stderr ≠ "" then
        (Except.error (ExecError.cmdError out.stderr), s2)
      else
        (Except.ok (mask_sensitive_output out.stdout), s2)

/-- CiscoSSHClient.execute_command: validate first (unless disabled),
then connect lazily and run. -/
def CiscoSSHClient.execute_command (t : Transport) (command : String)
    (validate : Bool) (s : SessionState) :
    Except ExecError String × SessionState :=
  if validate then
    match validate_command command with
    | Except.error e => (Except.error (ExecError.invalidCommand e), s)
    | Except.ok _ => CiscoSSHClient.executeConnected t command s
  else CiscoSSHClient.executeConnected t command s

/-- SSHConnectionPool.get_connection: reuse the stored session for the
host, otherwise create a fresh one, connect it, and store it only when
the connect succeeded; on failure the error propagates and the map is
unchanged. -/
def SSHConnectionPool.get_connection (tr : String → Transport)
    (pool : List (String × SessionState)) (host : String) :
    Except ExecError SessionState × List (String × SessionState) :=
  match pool.lookup host with
  | some c => (Except.ok c, pool)
  | none =>
    match CiscoSSHClient.connect (tr host) freshSession with
    | (Except.ok _, c2) => (Except.ok c2, pool ++ [(host, c2)])
    | (Except.error e, _) => (Except.error e, pool)

/-- The per-device outcome of the pool's execute_command for one host,
abstracted as an oracle from host to output-or-error (connection,
execution and validation errors are the three kinds that arise). -/
def executeSingle (exec : String → Except ExecError String)
    (command : String) (host : String) (hostname : String) : CommandResult :=
  match exec host with
  | Except.ok out =>
    { switch := hostname, command := command, output := out
      success := true, error := none }
  | Except.error e =>
    { switch := hostname, command := command, output := ""
      success := false, error := some e.message }

/-- SSHConnectionPool.execute_on_multiple: one execute per device, all
awaited, results collected in input order; hostnames default to the
host list. -/
def execute_on_multiple (exec : String → Except ExecError String)
    (hosts : List String) (command : String)
    (hostnames : Option (List String)) : List CommandResult :=
  let hns := hostnames.getD hosts
  (hosts.zip hns).map (fun p => executeSingle exec command p.1 p.2)

/-- Did the per-device execution succeed? -/
def execOk (exec : String → Except ExecError String) (host : String) :
    Bool :=
  match exec host with
  | Except.ok _ => true
  | Except.error _ => false

/-! ## Specification-side recomputations

These definitions restate, for comparison, what the claims say the code
computes; they are not part of the embedded program. -/

/-- The interface name and counter values a line contributes. -/
def lineCounterVals (line : List Char) : Option (String × List Nat) :=
  (countersMatchLine (pyStrip line)).map (fun x => (String.mk x.1, x.2))

/-- Claimed accumulated error total for one interface over a line list:
the sum, over every matched counter line naming it, of all matched
counter values. -/
def specLinesTotal (ls : List (List Char)) (name : String) : Nat :=
  ((ls.filterMap lineCounterVals).map
    (fun x => if x.1 = name then x.2.sum else 0)).sum

/-- Claimed accumulated error total for one interface over an output. -/
def specIfaceErrorTotal (output : String) (name : String) : Nat :=
  specLinesTotal (pySplitlines output.data) name

/-- Read the accumulated error total of a pool entry, zero if absent. -/
def lookupInput (pool : List (String × InterfaceErrors)) (n : String) :
    Nat :=
  match pool.lookup n with
  | some r => r.input_errors
  | none => 0

/-- The pool invariant of parse_interface_counters: distinct keys, and
every entry is self-named with its error flag tracking nonzeroness of
its accumulated total. -/
def GoodPool (pool : List (String × InterfaceErrors)) : Prop :=
  (pool.map Prod.fst).Nodup ∧
  ∀ e ∈ pool, e.2.name = e.1 ∧ (e.2.has_errors = true ↔ e.2.input_errors ≠ 0)

/-! ## Proof-side notions for the redactor

These classify the characters a separator region can contain and relate
a text to the result of one substitution pass over it. -/

/-- A character that can occur in a separator region of one of the five
patterns: whitespace, equals, colon, or a digit. -/
def gapCharOK (c : Char) : Bool :=
  pySpace c || c = '=' || c = ':' || pyDigit c

/-- A character that can start a separator region: whitespace, equals
or colon (a digit cannot come first in any of the three shapes). -/
def gapHeadOK (c : Char) : Bool :=
  pySpace c || c = '=' || c = ':'

/-- The list is empty or starts with whitespace (what remains after a
maximal nonspace token). -/
def spaceHead (l : List Char) : Prop :=
  l = [] ∨ ∃ c cs, l = c :: cs ∧ pySpace c = true

/-- The list is empty or starts with nonspace (what remains after a
separator region, which ends on a greedy whitespace star or plus). -/
def nonspaceHead (l : List Char) : Prop :=
  l = [] ∨ ∃ c cs, l = c :: cs ∧ pySpace c = false

/-- The facts about a separator parser that the substitution proofs
use: it splits its input, consumes a nonempty region of separator
characters starting with a separator head character, leaves a
nonspace-headed rest, and parses the same region again in front of any
nonspace-headed continuation. -/
structure GapSpec (gap : Piece) : Prop where
  split : ∀ l g r, gap l = some (g, r) → l = g ++ r
  ne : ∀ l g r, gap l = some (g, r) → g ≠ []
  chars : ∀ l g r, gap l = some (g, r) → ∀ c ∈ g, gapCharOK c = true
  headOK : ∀ l g r, gap l = some (g, r) →
    ∃ c g2, g = c :: g2 ∧ gapHeadOK c = true
  stop : ∀ l g r, gap l = some (g, r) → nonspaceHead r
  replay : ∀ l g r, gap l = some (g, r) → ∀ r2, nonspaceHead r2 →
    gap (g ++ r2) = some (g, r2)

/-- One text rewrites to another when some of its maximal nonspace
tokens (each followed by whitespace or the end) have been replaced by
the mask: exactly the relation between a text and its image under one
substitution pass. -/
inductive Rw : List Char → List Char → Prop where
  | nil : Rw [] []
  | keep (c : Char) {u v : List Char} : Rw u v → Rw (c :: u) (c :: v)
  | block (g2 : List Char) {u v : List Char} : g2 ≠ [] →
      (∀ c ∈ g2, pySpace c = false) → spaceHead u →
      Rw u v → Rw (g2 ++ u) (maskStr ++ v)

/-- The first characters of the five keywords. -/
def kwHeads : List Char := ['p', 'k', 's', 'm', 'c']

/-- Every character occurring in any of the five keywords. -/
def allKwChars : List Char :=
  kwPassword ++ kwKey ++ kwSecret ++ kwMd5 ++ kwCommunity

/-- The facts about a keyword that the substitution proofs use: it is
nonempty, its head is one of the five keyword heads, its characters
are keyword characters, and none of them is an asterisk. -/
structure KwFacts (kw : List Char) : Prop where
  ne : kw ≠ []
  headsOK : ∀ k0 ks, kw = k0 :: ks → k0 ∈ kwHeads
  inAll : ∀ k ∈ kw, k ∈ allKwChars
  noStar : ∀ k ∈ kw, k ≠ '*'

/-- A text is masked for a matcher when the matcher fails at every
suffix except possibly with the mask itself as the captured token:
substituting over such a text changes nothing. -/
def MaskedAt (m : SubMatcher) (s : List Char) : Prop :=
  ∀ n, m (s.drop n) = none ∨
    ∃ g1 r, m (s.drop n) = some (g1, maskStr, r)

/-- One keyword never occurs as a slice of another keyword at a
positive offset (decidable; checked for all ordered pairs of the five
keywords).  This is what makes a match impossible strictly inside the
keyword region of an already-masked block. -/
def kwClash (kwB kwA : List Char) : Prop :=
  ∀ q, q < kwA.length → 0 < q → q + kwB.length ≤ kwA.length →
    kwB ≠ (kwA.drop q).take kwB.length

end CiscoMcp

namespace CiscoMcp

/-! # Theorems -/

/-! ## List helpers -/

/-- A list's length splits into the lengths of a filter and its
complement. -/
theorem length_filter_partition {α : Type} (p : α → Bool) (l : List α) :
    l.length = (l.filter p).length + (l.filter (fun a => !p a)).length := by
  induction l with
  | nil => simp
  | cons a t ih =>
    by_cases h : p a <;> simp [List.filter_cons, h, ih] <;> omega

/-- The accumulate-if-loop shape used by the issue extractors equals a
filter followed by a map. -/
theorem foldl_collect {α β : Type} (f : α → β) (p : α → Bool)
    (l : List α) (acc : List β) :
    l.foldl (fun is a => if p a then is ++ [f a] else is) acc
      = acc ++ (l.filter p).map f := by
  induction l generalizing acc with
  | nil => simp
  | cons a t ih =>
    by_cases h : p a <;> simp [List.filter_cons, h, ih]

/-! ## C2: count invariants of the parsers -/

/-- C2: for every input text and device label, each parser's result has
total = healthy + problem, and the healthy/problem counts are the
partition of the record list by the per-record health flag (hence all
three are zero when no record matches). -/
theorem parsed_counts_partition (output switch_name : String) :
    ((parse_ospf_neighbors output switch_name).total_count =
       (parse_ospf_neighbors output switch_name).full_count +
       (parse_ospf_neighbors output switch_name).problem_count ∧
     (parse_ospf_neighbors output switch_name).full_count =
       ((parse_ospf_neighbors output switch_name).neighbors.filter
         (fun n => n.is_healthy)).length ∧
     (parse_ospf_neighbors output switch_name).problem_count =
       ((parse_ospf_neighbors output switch_name).neighbors.filter
         (fun n => !n.is_healthy)).length ∧
     (parse_ospf_neighbors output switch_name).total_count =
       (parse_ospf_neighbors output switch_name).neighbors.length) ∧
    ((parse_bgp_evpn_summary output switch_name).total_count =
       (parse_bgp_evpn_summary output switch_name).established_count +
       (parse_bgp_evpn_summary output switch_name).problem_count ∧
     (parse_bgp_evpn_summary output switch_name).established_count =
       ((parse_bgp_evpn_summary output switch_name).neighbors.filter
         (fun n => n.is_established)).length ∧
     (parse_bgp_evpn_summary output switch_name).problem_count =
       ((parse_bgp_evpn_summary output switch_name).neighbors.filter
         (fun n => !n.is_established)).length ∧
     (parse_bgp_evpn_summary output switch_name).total_count =
       (parse_bgp_evpn_summary output switch_name).neighbors.length) ∧
    ((parse_nve_peers output switch_name).total_count =
       (parse_nve_peers output switch_name).up_count +
       (parse_nve_peers output switch_name).down_count ∧
     (parse_nve_peers output switch_name).up_count =
       ((parse_nve_peers output switch_name).peers.filter
         (fun p => p.is_up)).length ∧
     (parse_nve_peers output switch_name).down_count =
       ((parse_nve_peers output switch_name).peers.filter
         (fun p => !p.is_up)).length ∧
     (parse_nve_peers output switch_name).total_count =
       (parse_nve_peers output switch_name).peers.length) := by
  refine ⟨⟨?_, rfl, ?_, rfl⟩, ⟨?_, rfl, ?_, rfl⟩, ⟨?_, rfl, ?_, rfl⟩⟩
  · have h := length_filter_partition (fun n : OSPFNeighbor => n.is_healthy)
      (parse_ospf_neighbors output switch_name).neighbors
    simp only [parse_ospf_neighbors] at *
    omega
  · have h := length_filter_partition (fun n : OSPFNeighbor => n.is_healthy)
      (parse_ospf_neighbors output switch_name).neighbors
    simp only [parse_ospf_neighbors] at *
    omega
  · have h := length_filter_partition (fun n : BGPNeighbor => n.is_established)
      (parse_bgp_evpn_summary output switch_name).neighbors
    simp only [parse_bgp_evpn_summary] at *
    omega
  · have h := length_filter_partition (fun n : BGPNeighbor => n.is_established)
      (parse_bgp_evpn_summary output switch_name).neighbors
    simp only [parse_bgp_evpn_summary] at *
    omega
  · have h := length_filter_partition (fun p : NVEPeer => p.is_up)
      (parse_nve_peers output switch_name).peers
    simp only [parse_nve_peers] at *
    omega
  · have h := length_filter_partition (fun p : NVEPeer => p.is_up)
      (parse_nve_peers output switch_name).peers
    simp only [parse_nve_peers] at *
    omega

/-! ## C5: shape of the issue extractors -/

/-- C5 counterexample: on a result with no interface records, the
interface issue extractor returns no issue at all — there is no
special-cased "no records found" entry, contradicting the claim that
every extractor, including the interface-error one, emits one. -/
theorem get_interface_issues_empty_is_empty :
    get_interface_issues (parse_interface_counters "" "switch-1") = []
      ∧ (parse_interface_counters "" "switch-1").interfaces = [] := by
  exact ⟨rfl, rfl⟩

/-- C5 amended: the OSPF and NVE extractors return exactly one issue
per unhealthy record, in record-list order, followed by a "no records
found" issue when the total count is zero; the interface-error
extractor returns one issue per record with errors, in record-list
order, with no empty-case issue. -/
theorem issue_extractors_shape (r1 : OSPFNeighborsResult)
    (r2 : NVEPeersResult) (r3 : InterfaceErrorsResult) :
    get_ospf_issues r1 =
      ((r1.neighbors.filter (fun n => !n.is_healthy)).map (fun n =>
        r1.switch ++ ": OSPF neighbor " ++ n.neighbor_id ++ " on " ++
        n.interface ++ " is in " ++ n.state ++ " state (not FULL)")) ++
      (if r1.total_count = 0 then
        [r1.switch ++ ": No OSPF neighbors found"] else []) ∧
    get_nve_issues r2 =
      ((r2.peers.filter (fun p => !p.is_up)).map (fun p =>
        r2.switch ++ ": NVE peer " ++ p.peer_ip ++ " is " ++ p.state)) ++
      (if r2.total_count = 0 then
        [r2.switch ++ ": No NVE peers found"] else []) ∧
    get_interface_issues r3 =
      (r3.interfaces.filter (fun i => i.has_errors)).map (fun i =>
        r3.switch ++ ": Interface " ++ i.name ++ " has errors (input: " ++
        toString i.input_errors ++ ", output: " ++
        toString i.output_errors ++ ")") := by
  refine ⟨?_, ?_, ?_⟩
  · unfold get_ospf_issues
    rw [foldl_collect (fun n : OSPFNeighbor =>
      r1.switch ++ ": OSPF neighbor " ++ n.neighbor_id ++ " on " ++
      n.interface ++ " is in " ++ n.state ++ " state (not FULL)")
      (fun n => !n.is_healthy) r1.neighbors []]
    simp
  · unfold get_nve_issues
    rw [foldl_collect (fun p : NVEPeer =>
      r2.switch ++ ": NVE peer " ++ p.peer_ip ++ " is " ++ p.state)
      (fun p => !p.is_up) r2.peers []]
    simp
  · unfold get_interface_issues
    rw [foldl_collect (fun i : InterfaceErrors =>
      r3.switch ++ ": Interface " ++ i.name ++ " has errors (input: " ++
      toString i.input_errors ++ ", output: " ++
      toString i.output_errors ++ ")")
      (fun i => i.has_errors) r3.interfaces []]
    simp

/-! ## C7: the BGP established-iff-numeric dichotomy -/

/-- C7: the BGP parser builds one record per matched row, in row order;
a row whose trailing State/PfxRcd token parses as an integer yields an
established record with that prefix count and state Established, and a
row with a non-numeric trailing token yields a non-established record
with zero prefixes and the token, verbatim, as state. -/
theorem bgp_established_dichotomy (output switch_name : String) :
    (parse_bgp_evpn_summary output switch_name).neighbors =
      (pySplitlines output.data).filterMap
        (fun line => (bgpMatchLine (pyStrip line)).map bgpNeighborOfMatch) ∧
    ∀ m : BgpMatch,
      (∀ n : Int, pyInt m.state_or_pfx = some n →
        bgpNeighborOfMatch m =
          { neighbor_id := String.mk m.neighbor_id
            asn := digitsToNat m.asn
            state := "Established"
            prefixes_received := n
            up_time := String.mk m.up_time
            is_established := true }) ∧
      (pyInt m.state_or_pfx = none →
        bgpNeighborOfMatch m =
          { neighbor_id := String.mk m.neighbor_id
            asn := digitsToNat m.asn
            state := String.mk m.state_or_pfx
            prefixes_received := 0
            up_time := String.mk m.up_time
            is_established := false }) := by
  refine ⟨rfl, fun m => ⟨?_, ?_⟩⟩
  · intro n hn
    unfold bgpNeighborOfMatch
    rw [hn]
  · intro hn
    unfold bgpNeighborOfMatch
    rw [hn]

/-- C7 witness: the spec's example rows.  A row ending in 150 parses as
established with 150 prefixes; a row ending in Idle parses as not
established with 0 prefixes and state Idle. -/
theorem bgp_established_dichotomy_witness :
    (pyInt ("150".data) = some 150 ∧
      bgpNeighborOfMatch ⟨"192.168.0.1".data, "64996".data, "2d03h".data,
        "150".data⟩ =
        { neighbor_id := "192.168.0.1", asn := 64996, state := "Established"
          prefixes_received := 150, up_time := "2d03h"
          is_established := true }) ∧
    (pyInt ("Idle".data) = none ∧
      bgpNeighborOfMatch ⟨"192.168.0.2".data, "64996".data, "2d03h".data,
        "Idle".data⟩ =
        { neighbor_id := "192.168.0.2", asn := 64996, state := "Idle"
          prefixes_received := 0, up_time := "2d03h"
          is_established := false }) :=
  ⟨⟨by decide,
    ((bgp_established_dichotomy "" "sw").2
      ⟨"192.168.0.1".data, "64996".data, "2d03h".data, "150".data⟩).1
      150 (by decide)⟩,
   ⟨by decide,
    ((bgp_established_dichotomy "" "sw").2
      ⟨"192.168.0.2".data, "64996".data, "2d03h".data, "Idle".data⟩).2
      (by decide)⟩⟩

/-! ## C8 and C9: the command validator -/

/-- If a list starts with a literal it decomposes as literal plus
remainder. -/
theorem startsWithLit_iff (p l : List Char) :
    startsWithLit p l = true ↔ ∃ t, l = p ++ t := by
  induction p generalizing l with
  | nil => simp [startsWithLit]
  | cons a ps ih =>
    cases l with
    | nil => simp [startsWithLit]
    | cons c cs =>
      simp only [startsWithLit, Bool.and_eq_true, decide_eq_true_eq, ih]
      constructor
      · rintro ⟨rfl, t, rfl⟩; exact ⟨t, rfl⟩
      · rintro ⟨t, h⟩
        injection h with h1 h2
        exact ⟨h1.symm, t, h2⟩

/-- C8 counterexample: the command clear countersxyz has the form
clear followed by an argument different from counters, yet the blocked
clear pattern does not match it (the negative lookahead only inspects
the eight characters after the whitespace, so any argument that merely
begins with counters escapes the denylist).  This refutes the claim
that the pattern matches every clear command whose argument is not
counters. -/
theorem blockedClear_misses_countersxyz :
    ("clear countersxyz" = "clear " ++ "countersxyz") ∧
    ("countersxyz" ≠ "counters") ∧
    blockedClearPattern ("clear countersxyz").data = false ∧
    validate_command "clear countersxyz" =
      Except.error (ValError.notAllowed "clear countersxyz") := by
  refine ⟨rfl, by decide, by decide, rfl⟩

/-- C8 amended: validate_command passes exactly when both gates pass —
the allowed-start whitelist and the blocked-pattern denylist — and
within the denylist the clear pattern does not match clear counters,
while for a single space and an argument not beginning with whitespace
it matches exactly the arguments that do not begin with the literal
counters (for example clear arp). -/
theorem validator_gates_and_clear_carveout :
    (∀ c : String, validate_command c = Except.ok () ↔
      (allowedByStart (pyLower (pyStrip c.data)) = true ∧
       blockedAny (pyLower (pyStrip c.data)) = false)) ∧
    blockedClearPattern ("clear counters").data = false ∧
    (∀ (a : Char) (rest : List Char), ¬ pySpace a = true →
      blockedClearPattern (['c','l','e','a','r',' '] ++ a :: rest) =
        !startsWithLit ['c','o','u','n','t','e','r','s'] (a :: rest)) := by
  refine ⟨?_, by decide, ?_⟩
  · intro c
    unfold validate_command
    constructor
    · intro h
      by_cases h1 : allowedByStart (pyLower (pyStrip c.data)) = true
      · by_cases h2 : blockedAny (pyLower (pyStrip c.data)) = true
        · simp [h1, h2] at h
        · exact ⟨h1, by simpa using h2⟩
      · simp [Bool.not_eq_true] at h1
        simp [h1] at h
    · rintro ⟨h1, h2⟩
      simp [h1, h2]
  · intro a rest ha
    have ha' : pySpace a = false := by simpa using ha
    show blockedClearPattern
      ('c' :: 'l' :: 'e' :: 'a' :: 'r' :: ' ' :: a :: rest) = _
    unfold blockedClearPattern
    have hd : dropLit ['c','l','e','a','r']
        ('c' :: 'l' :: 'e' :: 'a' :: 'r' :: ' ' :: a :: rest) =
        some (' ' :: a :: rest) := by
      simp [dropLit]
    rw [hd]
    have hws : List.takeWhile pySpace (' ' :: a :: rest) = [' '] := by
      rw [List.takeWhile_cons, List.takeWhile_cons]
      simp [ha', (by decide : pySpace ' ' = true)]
    simp only [hws, List.length_cons, List.length_nil]
    have hr : List.range 1 = [0] := by decide
    simp [hr]

/-- C8 witness: clear arp is matched by the blocked clear pattern. -/
theorem validator_gates_and_clear_carveout_witness :
    blockedClearPattern ("clear arp").data = true ∧
    validate_command "show version" = Except.ok () := by
  constructor
  · have h := validator_gates_and_clear_carveout.2.2 'a' ['r','p'] (by decide)
    exact h.trans (by decide)
  · exact (validator_gates_and_clear_carveout.1 "show version").mpr
      (by constructor <;> decide)

/-- C9: every command whose stripped, lowercased form begins with clear
— including clear counters itself — is rejected by the whitelist gate
(no allowed start begins with clear), so the denylist carve-out for
clear counters is unreachable and the rejection error is the
not-allowed one, not the blocked-pattern one. -/
theorem clear_rejected_at_whitelist :
    validate_command "clear counters" =
      Except.error (ValError.notAllowed "clear counters") ∧
    ∀ c : String,
      startsWithLit ['c','l','e','a','r'] (pyLower (pyStrip c.data)) = true →
      validate_command c = Except.error (ValError.notAllowed c) := by
  constructor
  · rfl
  · intro c h
    obtain ⟨t, ht⟩ := (startsWithLit_iff _ _).mp h
    unfold validate_command
    rw [ht]
    simp [allowedByStart, allowedCommandStarts, startsWithLit]

/-- C9 witness: a clear command with surrounding case and whitespace is
rejected by the whitelist gate. -/
theorem clear_rejected_at_whitelist_witness :
    validate_command "  Clear counters" =
      Except.error (ValError.notAllowed "  Clear counters") :=
  clear_rejected_at_whitelist.2 "  Clear counters" (by decide)

/-! ## C1: the multi-device fan-out -/

/-- Zipping a list with itself pairs each element with itself. -/
theorem zip_self {α : Type} (l : List α) :
    l.zip l = l.map (fun a => (a, a)) := by
  induction l with
  | nil => rfl
  | cons a t ih => simp [List.zip_cons_cons, ih]

/-- Filtering a mapped list has the length of filtering by the
composed predicate. -/
theorem length_filter_map {α β : Type} (f : α → β) (p : β → Bool)
    (l : List α) :
    ((l.map f).filter p).length = (l.filter (fun a => p (f a))).length := by
  induction l with
  | nil => rfl
  | cons a t ih => by_cases h : p (f a) <;> simp [List.filter_cons, h, ih]

/-- C1: execute_on_multiple returns exactly one result per device, in
input order; a device whose execution fails yields success false and
that error's message while the other entries are untouched; the number
of successes equals the number of devices whose execution succeeds, so
when exactly one device fails the batch has N minus 1 successes. -/
theorem execute_on_multiple_batch
    (exec : String → Except ExecError String) (hosts : List String)
    (command : String) :
    execute_on_multiple exec hosts command none =
      hosts.map (fun h => executeSingle exec command h h) ∧
    (execute_on_multiple exec hosts command none).length = hosts.length ∧
    (∀ h e, exec h = Except.error e →
      executeSingle exec command h h =
        { switch := h, command := command, output := ""
          success := false, error := some e.message }) ∧
    (∀ h out, exec h = Except.ok out →
      executeSingle exec command h h =
        { switch := h, command := command, output := out
          success := true, error := none }) ∧
    ((execute_on_multiple exec hosts command none).filter
        (fun r => r.success)).length =
      (hosts.filter (fun h => execOk exec h)).length ∧
    ((hosts.filter (fun h => !execOk exec h)).length = 1 →
      ((execute_on_multiple exec hosts command none).filter
        (fun r => r.success)).length = hosts.length - 1) := by
  have h1 : execute_on_multiple exec hosts command none =
      hosts.map (fun h => executeSingle exec command h h) := by
    unfold execute_on_multiple
    simp [Option.getD, zip_self, List.map_map, Function.comp]
  have hsucc : ∀ h, (executeSingle exec command h h).success =
      execOk exec h := by
    intro h
    unfold executeSingle execOk
    cases exec h <;> rfl
  have hlen : ((execute_on_multiple exec hosts command none).filter
      (fun r => r.success)).length =
      (hosts.filter (fun h => execOk exec h)).length := by
    rw [h1, length_filter_map]
    rw [List.filter_congr (fun a _ => hsucc a)]
  refine ⟨h1, by rw [h1, List.length_map], ?_, ?_, hlen, ?_⟩
  · intro h e he
    unfold executeSingle
    rw [he]
  · intro h out ho
    unfold executeSingle
    rw [ho]
  · intro hone
    have hpart := length_filter_partition
      (fun h => execOk exec h) hosts
    rw [hlen]
    omega

/-- C1 witness: three devices of which exactly the second fails yield a
batch with two successes, in order, the failure carrying the error
message. -/
theorem execute_on_multiple_batch_witness :
    ((["sw1", "sw2", "sw3"].filter (fun h =>
        !execOk (fun x => if x = "sw2"
          then Except.error (ExecError.connError "unreachable")
          else Except.ok "ok") h)).length = 1) ∧
    ((execute_on_multiple (fun x => if x = "sw2"
          then Except.error (ExecError.connError "unreachable")
          else Except.ok "ok") ["sw1", "sw2", "sw3"] "show version"
        none).filter (fun r => r.success)).length =
      (["sw1", "sw2", "sw3"] : List String).length - 1 :=
  ⟨by decide,
   (execute_on_multiple_batch (fun x => if x = "sw2"
      then Except.error (ExecError.connError "unreachable")
      else Except.ok "ok") ["sw1", "sw2", "sw3"]
      "show version").2.2.2.2.2 (by decide)⟩

/-! ## C3: validation happens before any transport activity -/

/-- C3: when the validator rejects a command, execute_command with
validation enabled returns the invalid-command error and the session
state — connection flag, connection attempts, command runs — is
exactly unchanged: no connect and no run happened. -/
theorem invalid_command_short_circuits (t : Transport) (command : String)
    (s : SessionState) (e : ValError)
    (h : validate_command command = Except.error e) :
    CiscoSSHClient.execute_command t command true s =
      (Except.error (ExecError.invalidCommand e), s) ∧
    (CiscoSSHClient.execute_command t command true s).2.connected =
      s.connected ∧
    (CiscoSSHClient.execute_command t command true s).2.connectCalls =
      s.connectCalls ∧
    (CiscoSSHClient.execute_command t command true s).2.runCalls =
      s.runCalls := by
  have h1 : CiscoSSHClient.execute_command t command true s =
      (Except.error (ExecError.invalidCommand e), s) := by
    unfold CiscoSSHClient.execute_command
    rw [if_pos rfl, h]
  exact ⟨h1, by rw [h1], by rw [h1], by rw [h1]⟩

/-- C3 witness: reload is rejected and a fully healthy transport is
never touched. -/
theorem invalid_command_short_circuits_witness :
    validate_command "reload" =
      Except.error (ValError.notAllowed "reload") ∧
    CiscoSSHClient.execute_command
      ⟨true, Except.ok (), fun _ =>
        Except.ok ⟨0, "uptime is 1 day", ""⟩⟩ "reload" true freshSession =
      (Except.error (ExecError.invalidCommand (ValError.notAllowed
        "reload")), freshSession) :=
  ⟨rfl,
   (invalid_command_short_circuits
      ⟨true, Except.ok (), fun _ => Except.ok ⟨0, "uptime is 1 day", ""⟩⟩
      "reload" freshSession (ValError.notAllowed "reload") rfl).1⟩

/-! ## C10: pool insertion is atomic with connect success -/

/-- Appending a fresh binding is found by lookup when the key was
absent. -/
theorem lookup_append_single {β : Type} (pool : List (String × β))
    (host : String) (v : β) (h : pool.lookup host = none) :
    (pool ++ [(host, v)]).lookup host = some v := by
  induction pool with
  | nil => simp [List.lookup]
  | cons e t ih =>
    simp only [List.cons_append, List.lookup] at *
    cases hbe : (host == e.1) with
    | true => simp [hbe] at h
    | false => simp only [hbe] at h ⊢; exact ih h

/-- C10: when the pool holds no session for the host, a failing
connect propagates the error and leaves the pool map unchanged, while
a succeeding connect stores exactly the connected session under the
host; so an entry appears only after its connect succeeded, and a
later call simply retries creation. -/
theorem get_connection_atomic (tr : String → Transport)
    (pool : List (String × SessionState)) (host : String)
    (h : pool.lookup host = none) :
    (∀ e c', CiscoSSHClient.connect (tr host) freshSession =
        (Except.error e, c') →
      SSHConnectionPool.get_connection tr pool host =
        (Except.error e, pool)) ∧
    (∀ c2, CiscoSSHClient.connect (tr host) freshSession =
        (Except.ok (), c2) →
      SSHConnectionPool.get_connection tr pool host =
        (Except.ok c2, pool ++ [(host, c2)]) ∧
      (pool ++ [(host, c2)]).lookup host = some c2 ∧
      c2.connected = true) := by
  constructor
  · intro e c' hc
    unfold SSHConnectionPool.get_connection
    rw [h, hc]
  · intro c2 hc
    have hconn : c2.connected = true := by
      unfold CiscoSSHClient.connect at hc
      simp only [freshSession] at hc
      by_cases hk : (tr host).keyExists
      · simp only [hk] at hc
        cases ho : (tr host).connectOutcome with
        | ok u => rw [ho] at hc; simp at hc; rw [← hc]
        | error m => rw [ho] at hc; simp at hc
      · simp only [Bool.not_eq_true] at hk
        simp [hk] at hc
    refine ⟨?_, lookup_append_single pool host c2 h, hconn⟩
    unfold SSHConnectionPool.get_connection
    rw [h, hc]

/-- C10 witness: a missing key file leaves the empty pool empty with
the connection error; a healthy transport stores the connected
session. -/
theorem get_connection_atomic_witness :
    SSHConnectionPool.get_connection
      (fun _ => ⟨false, Except.ok (), fun _ => Except.ok ⟨0, "", ""⟩⟩)
      [] "10.0.0.5" =
      (Except.error (ExecError.connError "SSH key file not found"), []) ∧
    SSHConnectionPool.get_connection
      (fun _ => ⟨true, Except.ok (), fun _ => Except.ok ⟨0, "", ""⟩⟩)
      [] "10.0.0.5" =
      (Except.ok ⟨true, 1, 0⟩, [("10.0.0.5", ⟨true, 1, 0⟩)]) :=
  ⟨(get_connection_atomic
      (fun _ => ⟨false, Except.ok (), fun _ => Except.ok ⟨0, "", ""⟩⟩)
      [] "10.0.0.5" rfl).1 _ _ rfl,
   ((get_connection_atomic
      (fun _ => ⟨true, Except.ok (), fun _ => Except.ok ⟨0, "", ""⟩⟩)
      [] "10.0.0.5" rfl).2 _ rfl).1⟩

/-! ## C6: accumulation in the interface counters parser -/

/-- applySixVals adds the sum of the values to input_errors and ors
the error flag with their nonzeroness; the name is unchanged. -/
theorem applySixVals_fields (vals : List Nat) (r : InterfaceErrors) :
    (applySixVals vals r).input_errors = r.input_errors + vals.sum ∧
    (applySixVals vals r).has_errors =
      (r.has_errors || decide (vals.sum ≠ 0)) ∧
    (applySixVals vals r).name = r.name := by
  induction vals generalizing r with
  | nil => simp [applySixVals]
  | cons v vs ih =>
    have hstep : applySixVals (v :: vs) r =
        applySixVals vs (if v > 0 then
          { r with input_errors := r.input_errors + v, has_errors := true }
          else r) := by
      simp only [applySixVals, List.foldl_cons]
    by_cases h : v > 0
    · rw [hstep, if_pos h]
      obtain ⟨h1, h2, h3⟩ := ih
        { r with input_errors := r.input_errors + v, has_errors := true }
      refine ⟨?_, ?_, h3⟩
      · rw [h1]; simp only [List.sum_cons]; omega
      · rw [h2]
        have hnz : decide (v + vs.sum ≠ 0) = true :=
          decide_eq_true (by omega)
        simp only [List.sum_cons, hnz, Bool.or_true, Bool.true_or]
    · have hv : v = 0 := by omega
      rw [hstep, if_neg h]
      obtain ⟨h1, h2, h3⟩ := ih r
      subst hv
      exact ⟨by rw [h1]; simp [List.sum_cons], by rw [h2]; simp, h3⟩

/-- applyTwoVals adds the sum of both values when either is positive
and ors the flag with their nonzeroness; the name is unchanged. -/
theorem applyTwoVals_fields (v1 v2 : Nat) (r : InterfaceErrors) :
    (applyTwoVals v1 v2 r).input_errors = r.input_errors + (v1 + v2) ∧
    (applyTwoVals v1 v2 r).has_errors =
      (r.has_errors || decide (v1 + v2 ≠ 0)) ∧
    (applyTwoVals v1 v2 r).name = r.name := by
  by_cases h : (decide (v1 > 0) || decide (v2 > 0)) = true
  · have hc : v1 > 0 ∨ v2 > 0 := by
      simpa only [Bool.or_eq_true, decide_eq_true_eq] using h
    have hnz : decide (v1 + v2 ≠ 0) = true := decide_eq_true (by omega)
    unfold applyTwoVals
    rw [if_pos h]
    exact ⟨rfl, by rw [hnz, Bool.or_true], rfl⟩
  · have hc : ¬ (v1 > 0 ∨ v2 > 0) := by
      simpa only [Bool.or_eq_true, decide_eq_true_eq] using h
    have h1 : v1 = 0 := by omega
    have h2 : v2 = 0 := by omega
    unfold applyTwoVals
    rw [if_neg h]
    subst h1; subst h2
    simp

/-- applyLineVals adds the value sum and ors the flag with its
nonzeroness, whichever pattern branch applies. -/
theorem applyLineVals_fields (vals : List Nat) (r : InterfaceErrors) :
    (applyLineVals vals r).input_errors = r.input_errors + vals.sum ∧
    (applyLineVals vals r).has_errors =
      (r.has_errors || decide (vals.sum ≠ 0)) ∧
    (applyLineVals vals r).name = r.name := by
  rcases vals with _ | ⟨a, _ | ⟨b, _ | ⟨c, rest⟩⟩⟩
  · exact applySixVals_fields [] r
  · exact applySixVals_fields [a] r
  · have h := applyTwoVals_fields a b r
    simpa [applyLineVals, List.sum_cons] using h
  · exact applySixVals_fields (a :: b :: c :: rest) r

/-- lookup after updatePool: the named entry is mapped, others are
untouched. -/
theorem lookup_updatePool (pool : List (String × InterfaceErrors))
    (name : String) (f : InterfaceErrors → InterfaceErrors) (n : String) :
    (updatePool pool name f).lookup n =
      if n = name then (pool.lookup n).map f else pool.lookup n := by
  induction pool with
  | nil => simp [updatePool, List.lookup]
  | cons e t ih =>
    by_cases he : e.1 = name
    · have hupd : updatePool (e :: t) name f =
          (e.1, f e.2) :: updatePool t name f := by
        simp [updatePool, he]
      rw [hupd]
      by_cases hn : n = e.1
      · subst hn
        simp [List.lookup, he]
      · have hb : (n == e.1) = false := by simp [hn]
        have hnm : n ≠ name := fun hh => hn (hh.trans he.symm)
        simp [List.lookup, hb, hnm, ih]
    · have hupd : updatePool (e :: t) name f =
          e :: updatePool t name f := by
        simp [updatePool, he]
      rw [hupd]
      by_cases hn : n = e.1
      · subst hn
        simp [List.lookup, he]
      · have hb : (n == e.1) = false := by simp [hn]
        simp [List.lookup, hb, ih]

/-- lookup after ensureEntry at the ensured name: the old record if
present, the blank record otherwise. -/
theorem lookup_ensureEntry_self (pool : List (String × InterfaceErrors))
    (name : String) :
    (ensureEntry pool name).lookup name =
      some ((pool.lookup name).getD (blankInterfaceErrors name)) := by
  unfold ensureEntry
  cases hl : pool.lookup name with
  | some r => simp [hl]
  | none =>
    rw [if_neg (by simp)]
    rw [lookup_append_single pool name _ hl]
    rfl

/-- Appending a binding for another key does not change lookup. -/
theorem lookup_append_other {β : Type} (pool : List (String × β))
    (name n : String) (v : β) (hne : n ≠ name) :
    (pool ++ [(name, v)]).lookup n = pool.lookup n := by
  induction pool with
  | nil =>
    have hb : (n == name) = false := by simp [hne]
    simp [List.lookup, hb]
  | cons e t ih =>
    simp only [List.cons_append, List.lookup]
    cases hb : (n == e.1) with
    | true => rfl
    | false => exact ih

/-- lookup after ensureEntry at any other name is unchanged. -/
theorem lookup_ensureEntry_other (pool : List (String × InterfaceErrors))
    (name n : String) (hne : n ≠ name) :
    (ensureEntry pool name).lookup n = pool.lookup n := by
  unfold ensureEntry
  by_cases hl : (pool.lookup name).isSome = true
  · rw [if_pos hl]
  · rw [if_neg hl]
    exact lookup_append_other pool name n _ hne

/-- updatePool does not change the key list. -/
theorem map_fst_updatePool (pool : List (String × InterfaceErrors))
    (name : String) (f : InterfaceErrors → InterfaceErrors) :
    (updatePool pool name f).map Prod.fst = pool.map Prod.fst := by
  induction pool with
  | nil => rfl
  | cons e t ih =>
    simp only [updatePool, List.map_cons] at *
    by_cases he : e.1 = name <;> simp [he, ih]

/-- An absent key is not among the keys. -/
theorem lookup_none_not_mem (pool : List (String × InterfaceErrors))
    (k : String) (h : pool.lookup k = none) :
    k ∉ pool.map Prod.fst := by
  induction pool with
  | nil => simp
  | cons e t ih =>
    simp only [List.lookup] at h
    cases hb : (k == e.1) with
    | true => simp [hb] at h
    | false =>
      simp only [hb] at h
      simp only [List.map_cons, List.mem_cons]
      rintro (h1 | h2)
      · simp only [beq_eq_false_iff_ne, ne_eq] at hb; exact hb h1
      · exact ih h h2

/-- With distinct keys, membership determines lookup. -/
theorem mem_lookup_of_nodup (pool : List (String × InterfaceErrors))
    (hnd : (pool.map Prod.fst).Nodup) (k : String) (v : InterfaceErrors)
    (hm : (k, v) ∈ pool) : pool.lookup k = some v := by
  induction pool with
  | nil => simp at hm
  | cons e t ih =>
    simp only [List.map_cons, List.nodup_cons] at hnd
    rcases List.mem_cons.mp hm with h1 | h2
    · rw [← h1]
      simp [List.lookup]
    · have hk : k ≠ e.1 := by
        intro hk
        exact hnd.1 (hk ▸ (List.mem_map.mpr ⟨(k, v), h2, rfl⟩))
      have hb : (k == e.1) = false := by simp [hk]
      simp only [List.lookup, hb]
      exact ih hnd.2 h2

/-- ensureEntry preserves the pool invariant. -/
theorem ensureEntry_good (pool : List (String × InterfaceErrors))
    (name : String) (hg : GoodPool pool) :
    GoodPool (ensureEntry pool name) := by
  unfold ensureEntry
  by_cases hl : (pool.lookup name).isSome = true
  · rw [if_pos hl]; exact hg
  · rw [if_neg hl]
    have hnone : pool.lookup name = none := by
      cases h : pool.lookup name with
      | none => rfl
      | some r => rw [h] at hl; simp at hl
    constructor
    · rw [List.map_append]
      refine List.Nodup.append hg.1 (by simp) ?_
      intro a ha hb
      simp only [List.map_cons, List.map_nil, List.mem_singleton] at hb
      exact lookup_none_not_mem pool name hnone (hb ▸ ha)
    · intro e he
      rcases List.mem_append.mp he with h1 | h2
      · exact hg.2 e h1
      · simp only [List.mem_singleton] at h2
        subst h2
        exact ⟨rfl, by simp [blankInterfaceErrors]⟩

/-- One parse step preserves the pool invariant and adds exactly the
line's counter sum to the accumulated total of the named interface. -/
theorem countersStep_spec (pool : List (String × InterfaceErrors))
    (line : List Char) (hg : GoodPool pool) :
    GoodPool (countersStep pool line) ∧
    ∀ n, lookupInput (countersStep pool line) n =
      lookupInput pool n +
        (match lineCounterVals line with
         | some x => if x.1 = n then x.2.sum else 0
         | none => 0) := by
  unfold countersStep lineCounterVals
  cases hm : countersMatchLine (pyStrip line) with
  | none => simp [hg]
  | some x =>
    obtain ⟨nameChars, vals⟩ := x
    simp only [Option.map_some]
    set name := String.mk nameChars with hname
    set pool1 := ensureEntry pool name with hpool1
    have hg1 : GoodPool pool1 := ensureEntry_good pool name hg
    constructor
    · -- invariant for the updated pool
      constructor
      · rw [map_fst_updatePool]; exact hg1.1
      · intro e he
        unfold updatePool at he
        obtain ⟨e0, he0, hmap⟩ := List.mem_map.mp he
        by_cases hk : e0.1 = name
        · rw [if_pos hk] at hmap
          obtain ⟨h0name, h0flag⟩ := hg1.2 e0 he0
          obtain ⟨hf1, hf2, hf3⟩ := applyLineVals_fields vals e0.2
          subst hmap
          constructor
          · show (applyLineVals vals e0.2).name = e0.1
            rw [hf3]; exact h0name
          · show (applyLineVals vals e0.2).has_errors = true ↔
              (applyLineVals vals e0.2).input_errors ≠ 0
            rw [hf1, hf2, Bool.or_eq_true, decide_eq_true_eq, h0flag]
            omega
        · rw [if_neg hk] at hmap
          subst hmap
          exact hg1.2 e0 he0
    · -- accumulated totals
      intro n
      by_cases hn : name = n
      · subst hn
        unfold lookupInput
        rw [lookup_updatePool, if_pos rfl, lookup_ensureEntry_self]
        simp only [Option.map]
        obtain ⟨hf1, _, _⟩ :=
          applyLineVals_fields vals
            ((pool.lookup name).getD (blankInterfaceErrors name))
        rw [hf1]
        cases hl : pool.lookup name with
        | some r => simp [hl]
        | none => simp [hl, blankInterfaceErrors]
      · unfold lookupInput
        rw [lookup_updatePool, if_neg (fun h => hn h.symm),
          lookup_ensureEntry_other pool name n (fun h => hn h.symm)]
        simp [hn]

/-- Folding the parse step over lines preserves the invariant and
accumulates, per interface, the claimed per-line totals. -/
theorem countersFold_spec (ls : List (List Char))
    (pool : List (String × InterfaceErrors)) (hg : GoodPool pool) :
    GoodPool (ls.foldl countersStep pool) ∧
    ∀ n, lookupInput (ls.foldl countersStep pool) n =
      lookupInput pool n + specLinesTotal ls n := by
  induction ls generalizing pool with
  | nil => simpa [specLinesTotal] using hg
  | cons line rest ih =>
    obtain ⟨hg1, hstep⟩ := countersStep_spec pool line hg
    obtain ⟨hg2, hsum⟩ := ih (countersStep pool line) hg1
    refine ⟨by simpa using hg2, ?_⟩
    intro n
    have htot : specLinesTotal (line :: rest) n =
        (match lineCounterVals line with
         | some x => if x.1 = n then x.2.sum else 0
         | none => 0) + specLinesTotal rest n := by
      unfold specLinesTotal
      cases h : lineCounterVals line with
      | none => simp [List.filterMap_cons, h]
      | some x => simp [List.filterMap_cons, h]
    simp only [List.foldl_cons]
    rw [hsum n, hstep n, htot]
    omega

/-- C6: the interface counters parser produces one record per
interface name (lines naming the same interface are merged), whose
accumulated error total is the sum of all matched counter values for
that name across every table line, and whose error flag is set exactly
when that total is nonzero. -/
theorem interface_counters_accumulate (output switch_name : String) :
    ((parse_interface_counters output switch_name).interfaces.map
      (fun i => i.name)).Nodup ∧
    ∀ i ∈ (parse_interface_counters output switch_name).interfaces,
      i.input_errors = specIfaceErrorTotal output i.name ∧
      (i.has_errors = true ↔ i.input_errors ≠ 0) := by
  have hGoodNil : GoodPool [] := ⟨List.nodup_nil, by simp⟩
  obtain ⟨hgood, hsum⟩ :=
    countersFold_spec (pySplitlines output.data) [] hGoodNil
  have hifc : (parse_interface_counters output switch_name).interfaces =
      ((pySplitlines output.data).foldl countersStep []).map Prod.snd := by
    simp [parse_interface_counters]
  constructor
  · rw [hifc, List.map_map]
    have : ((pySplitlines output.data).foldl countersStep []).map
        (fun e => e.2.name) =
        ((pySplitlines output.data).foldl countersStep []).map
        Prod.fst := by
      apply List.map_congr_left
      intro e he
      exact (hgood.2 e he).1
    simpa [Function.comp] using this ▸ hgood.1
  · intro i hi
    rw [hifc] at hi
    obtain ⟨e, he, hmap⟩ := List.mem_map.mp hi
    obtain ⟨hename, heflag⟩ := hgood.2 e he
    have hl : ((pySplitlines output.data).foldl countersStep []).lookup
        e.1 = some e.2 :=
      mem_lookup_of_nodup _ hgood.1 e.1 e.2 (by
        have : e = (e.1, e.2) := rfl
        rw [← this]; exact he)
    have htot := hsum e.1
    unfold lookupInput at htot
    rw [hl] at htot
    simp only [List.lookup] at htot
    subst hmap
    refine ⟨?_, heflag⟩
    rw [hename]
    unfold specIfaceErrorTotal
    simpa using htot

/-- C6 witness: two counter tables both naming Eth1/1 (sums 3 and 6)
merge into one record with accumulated total 9 and the error flag
set. -/
theorem interface_counters_accumulate_witness :
    ((⟨"Eth1/1", 9, 0, 0, 0, 0, true⟩ : InterfaceErrors) ∈
      (parse_interface_counters "Eth1/1 1 2 0 0 0 0\nEth1/1 3 3"
        "sw1").interfaces) ∧
    ((⟨"Eth1/1", 9, 0, 0, 0, 0, true⟩ : InterfaceErrors).input_errors =
      specIfaceErrorTotal "Eth1/1 1 2 0 0 0 0\nEth1/1 3 3" "Eth1/1" ∧
     ((⟨"Eth1/1", 9, 0, 0, 0, 0, true⟩ :
        InterfaceErrors).has_errors = true ↔
      (⟨"Eth1/1", 9, 0, 0, 0, 0, true⟩ :
        InterfaceErrors).input_errors ≠ 0)) :=
  ⟨by decide,
   (interface_counters_accumulate "Eth1/1 1 2 0 0 0 0\nEth1/1 3 3"
      "sw1").2 ⟨"Eth1/1", 9, 0, 0, 0, 0, true⟩ (by decide)⟩

/-! ## C4 groundwork: characters and primitive scanners -/

/-- Lowercasing a digit character is the identity. -/
theorem toLower_of_digit (c : Char) (h : pyDigit c = true) :
    c.toLower = c := by
  simp only [pyDigit, Char.isDigit, Bool.and_eq_true,
    decide_eq_true_eq] at h
  unfold Char.toLower
  rw [if_neg]
  intro hcon
  obtain ⟨h1, h2⟩ := h
  obtain ⟨h3, h4⟩ := hcon
  have e1 : c.val.toNat ≤ (57 : UInt32).toNat := h2
  have e2 : (57 : UInt32).toNat = 57 := rfl
  simp only [Char.toNat] at h3
  omega

/-- A digit character differs from any character with code point at
least 97 (all lowercase keyword letters). -/
theorem digit_ne_letter (c : Char) (h : pyDigit c = true) (k : Char)
    (hk : 97 ≤ k.val.toNat) : c.toLower ≠ k := by
  intro he
  rw [toLower_of_digit c h] at he
  subst he
  simp only [pyDigit, Char.isDigit, Bool.and_eq_true,
    decide_eq_true_eq] at h
  have e1 : c.val.toNat ≤ (57 : UInt32).toNat := h.2
  have e2 : (57 : UInt32).toNat = 57 := rfl
  omega

/-- A whitespace character is one of six concrete characters. -/
theorem pySpace_cases (c : Char) (h : pySpace c = true) :
    c = ' ' ∨ c = '\t' ∨ c = '\n' ∨ c = '\x0d' ∨
    c = Char.ofNat 11 ∨ c = Char.ofNat 12 := by
  simp only [pySpace, Bool.or_eq_true, decide_eq_true_eq] at h
  tauto

/-- A separator head character never lowercases into a keyword
character. -/
theorem gapHeadOK_not_kwchar (c : Char) (h : gapHeadOK c = true)
    (k : Char) (hk : k ∈ allKwChars) : c.toLower ≠ k := by
  simp only [gapHeadOK, Bool.or_eq_true, decide_eq_true_eq] at h
  rcases h with (h | h) | h
  · rcases pySpace_cases c h with h' | h' | h' | h' | h' | h' <;>
      (subst h'; revert k; decide)
  · subst h; revert k; decide
  · subst h; revert k; decide

/-- Keyword heads are keyword characters. -/
theorem kwHeads_sub_allKwChars : ∀ k ∈ kwHeads, k ∈ allKwChars := by
  decide

/-- A separator character never lowercases into a keyword head. -/
theorem gapCharOK_not_kwhead (c : Char) (h : gapCharOK c = true)
    (k : Char) (hk : k ∈ kwHeads) : c.toLower ≠ k := by
  simp only [gapCharOK, Bool.or_eq_true, decide_eq_true_eq] at h
  rcases h with ((h | h) | h) | h
  · exact gapHeadOK_not_kwchar c (by simp [gapHeadOK, h]) k
      (kwHeads_sub_allKwChars k hk)
  · exact gapHeadOK_not_kwchar c (by simp [gapHeadOK, h]) k
      (kwHeads_sub_allKwChars k hk)
  · exact gapHeadOK_not_kwchar c (by simp [gapHeadOK, h]) k
      (kwHeads_sub_allKwChars k hk)
  · refine digit_ne_letter c h k ?_
    have hb : ∀ j ∈ kwHeads, 97 ≤ j.val.toNat := by decide
    exact hb k hk

/-- An asterisk never lowercases into a keyword head. -/
theorem star_not_kwhead (k : Char) (hk : k ∈ kwHeads) :
    ('*').toLower ≠ k := by
  revert k; decide

/-- A separator character is not an asterisk. -/
theorem gapCharOK_ne_star (c : Char) (h : gapCharOK c = true) :
    c ≠ '*' := by
  simp only [gapCharOK, Bool.or_eq_true, decide_eq_true_eq] at h
  rcases h with ((h | h) | h) | h
  · rcases pySpace_cases c h with h' | h' | h' | h' | h' | h' <;>
      (subst h'; decide)
  · subst h; decide
  · subst h; decide
  · intro he
    subst he
    simp only [pyDigit, Char.isDigit, Bool.and_eq_true,
      decide_eq_true_eq] at h
    exact absurd h (by decide)

/-- What remains after dropWhile is empty or starts with a failing
character. -/
theorem dropWhile_head_false (p : Char → Bool) (l : List Char) :
    l.dropWhile p = [] ∨
    ∃ c cs, l.dropWhile p = c :: cs ∧ p c = false := by
  induction l with
  | nil => left; rfl
  | cons a t ih =>
    by_cases h : p a = true
    · simpa [List.dropWhile_cons, h] using ih
    · right
      exact ⟨a, t, by simp [List.dropWhile_cons, h], by
        simpa using h⟩

/-- Inversion for a successful greedy nonempty class run. -/
theorem takeWhile1_eq_some {p : Char → Bool} {l t r : List Char}
    (h : takeWhile1 p l = some (t, r)) :
    l = t ++ r ∧ t ≠ [] ∧ (∀ c ∈ t, p c = true) ∧
    (r = [] ∨ ∃ c cs, r = c :: cs ∧ p c = false) := by
  unfold takeWhile1 at h
  by_cases he : (l.takeWhile p).isEmpty = true
  · simp [he] at h
  · simp only [he, Bool.false_eq_true, if_false, if_neg,
      Option.some.injEq, Prod.mk.injEq] at h
    obtain ⟨rfl, rfl⟩ := h
    refine ⟨(List.takeWhile_append_dropWhile p l).symm, ?_, ?_, ?_⟩
    · intro hnil; rw [hnil] at he; simp at he
    · intro c hc; exact List.mem_takeWhile_imp hc
    · exact dropWhile_head_false p l

/-- Replay for a greedy class run: a full-class segment followed by an
empty or failing-headed rest parses back to exactly that split. -/
theorem takeWhile1_replay {p : Char → Bool} {t w : List Char}
    (ht : t ≠ []) (hall : ∀ c ∈ t, p c = true)
    (hw : w = [] ∨ ∃ c cs, w = c :: cs ∧ p c = false) :
    takeWhile1 p (t ++ w) = some (t, w) := by
  have h1 : (t ++ w).takeWhile p = t ∧ (t ++ w).dropWhile p = w := by
    induction t with
    | nil =>
      rcases hw with rfl | ⟨c, cs, rfl, hc⟩
      · simp
      · simp [List.takeWhile_cons, List.dropWhile_cons, hc]
    | cons a t' ih =>
      have ha : p a = true := hall a (List.mem_cons_self a t')
      by_cases ht' : t' = []
      · subst ht'
        rcases hw with rfl | ⟨c, cs, rfl, hc⟩
        · simp [List.takeWhile_cons, List.dropWhile_cons, ha]
        · simp [List.takeWhile_cons, List.dropWhile_cons, ha, hc]
      · obtain ⟨e1, e2⟩ :=
          ih ht' (fun c hc => hall c (List.mem_cons_of_mem a hc))
        simp [List.takeWhile_cons, List.dropWhile_cons, ha, e1, e2]
  unfold takeWhile1
  rw [h1.1, h1.2]
  simp [ht]

/-- Inversion for a successful case-insensitive keyword strip. -/
theorem dropKw_eq_some {kw : List Char} :
    ∀ {l kc r : List Char}, dropKw kw l = some (kc, r) →
    l = kc ++ r ∧ kc.map Char.toLower = kw := by
  induction kw with
  | nil =>
    intro l kc r h
    simp only [dropKw, Option.some.injEq, Prod.mk.injEq] at h
    obtain ⟨rfl, rfl⟩ := h
    exact ⟨rfl, rfl⟩
  | cons k ks ih =>
    intro l kc r h
    cases l with
    | nil => simp [dropKw] at h
    | cons c cs =>
      simp only [dropKw] at h
      by_cases hk : k = c.toLower
      · rw [if_pos hk] at h
        cases hd : dropKw ks cs with
        | none => rw [hd] at h; simp at h
        | some x =>
          obtain ⟨a, r'⟩ := x
          rw [hd] at h
          simp only [Option.some.injEq, Prod.mk.injEq] at h
          obtain ⟨rfl, rfl⟩ := h
          obtain ⟨e1, e2⟩ := ih hd
          exact ⟨by rw [e1]; rfl, by simp [e2, hk]⟩
      · rw [if_neg hk] at h; simp at h

/-- Replay for the keyword strip: the matched characters parse back in
front of any continuation. -/
theorem dropKw_replay {kc : List Char} :
    ∀ {kw : List Char}, kc.map Char.toLower = kw →
    ∀ r, dropKw kw (kc ++ r) = some (kc, r) := by
  induction kc with
  | nil =>
    intro kw h r
    subst h
    rfl
  | cons c kc' ih =>
    intro kw h r
    subst h
    have hstep : dropKw (c.toLower :: kc'.map Char.toLower)
        (c :: (kc' ++ r)) =
        match dropKw (kc'.map Char.toLower) (kc' ++ r) with
        | some (a, r') => some (c :: a, r')
        | none => none := by
      simp [dropKw]
    have hl : (c :: kc') ++ r = c :: (kc' ++ r) := rfl
    rw [List.map_cons, hl, hstep, ih rfl r]

/-- The keyword strip fails on a wrong first character. -/
theorem dropKw_none_of_head {k0 : Char} {kws : List Char} {c : Char}
    {cs : List Char} (h : k0 ≠ c.toLower) :
    dropKw (k0 :: kws) (c :: cs) = none := by
  simp [dropKw, h]

/-- The keyword strip fails on the empty list when the keyword is
nonempty. -/
theorem dropKw_nil {k0 : Char} {kws : List Char} :
    dropKw (k0 :: kws) [] = none := rfl

/-- takeWhile and dropWhile of an all-class segment followed by an
empty or failing-headed rest. -/
theorem takeWhile_append_exact {p : Char → Bool} {t w : List Char}
    (hall : ∀ c ∈ t, p c = true)
    (hw : w = [] ∨ ∃ c cs, w = c :: cs ∧ p c = false) :
    (t ++ w).takeWhile p = t ∧ (t ++ w).dropWhile p = w := by
  induction t with
  | nil =>
    rcases hw with rfl | ⟨c, cs, rfl, hc⟩
    · simp
    · simp [List.takeWhile_cons, List.dropWhile_cons, hc]
  | cons a t' ih =>
    have ha : p a = true := hall a (List.mem_cons_self a t')
    obtain ⟨e1, e2⟩ := ih (fun c hc => hall c (List.mem_cons_of_mem a hc))
    simp [List.takeWhile_cons, List.dropWhile_cons, ha, e1, e2]

/-- A whitespace character is not a digit. -/
theorem space_not_digit (c : Char) (h : pySpace c = true) :
    pyDigit c = false := by
  rcases pySpace_cases c h with h' | h' | h' | h' | h' | h' <;>
    (subst h'; decide)

/-- A digit character is not whitespace. -/
theorem digit_not_space (c : Char) (h : pyDigit c = true) :
    pySpace c = false := by
  by_cases hs : pySpace c = true
  · rw [space_not_digit c hs] at h; exact absurd h (by simp)
  · simpa using hs

/-- Evaluation of pseq once its first piece is known. -/
theorem pseq_some_eval {p q : Piece} {l b r1 : List Char}
    (hp : p l = some (b, r1)) :
    pseq p q l =
      match q r1 with
      | none => none
      | some (c, r2) => some (b ++ c, r2) := by
  unfold pseq
  rw [hp]

/-- Inversion for the pseq combinator. -/
theorem pseq_eq_some {p q : Piece} {l a r : List Char}
    (h : pseq p q l = some (a, r)) :
    ∃ b c r1, p l = some (b, r1) ∧ q r1 = some (c, r) ∧ a = b ++ c := by
  cases hp : p l with
  | none =>
    unfold pseq at h
    rw [hp] at h
    simp at h
  | some x =>
    obtain ⟨b, r1⟩ := x
    rw [pseq_some_eval hp] at h
    cases hq : q r1 with
    | none => rw [hq] at h; simp at h
    | some y =>
      obtain ⟨c, r2⟩ := y
      rw [hq] at h
      simp only [Option.some.injEq, Prod.mk.injEq] at h
      obtain ⟨rfl, rfl⟩ := h
      exact ⟨b, c, r1, rfl, hq, rfl⟩

/-- Evaluation of the password/key/secret separator once the leading
whitespace has been dropped. -/
theorem gapEq_eval_cons {l : List Char} {c : Char} {r2 : List Char}
    (hd : l.dropWhile pySpace = c :: r2) :
    gapEq l =
      if (c = '=' || c = ':') = true then
        some (l.takeWhile pySpace ++ c :: r2.takeWhile pySpace,
          r2.dropWhile pySpace)
      else none := by
  unfold gapEq
  rw [hd]

/-- The password/key/secret separator fails on all-whitespace input. -/
theorem gapEq_eval_nil {l : List Char} (hd : l.dropWhile pySpace = []) :
    gapEq l = none := by
  unfold gapEq
  rw [hd]

/-- Canonical decomposition of a successful password/key/secret
separator parse. -/
theorem gapEq_inv {l g r : List Char} (h : gapEq l = some (g, r)) :
    ∃ sp1 c tw, g = sp1 ++ c :: tw ∧ (∀ x ∈ sp1, pySpace x = true) ∧
      (c = '=' ∨ c = ':') ∧ (∀ x ∈ tw, pySpace x = true) ∧
      l = g ++ r ∧ nonspaceHead r := by
  cases hd : l.dropWhile pySpace with
  | nil => rw [gapEq_eval_nil hd] at h; simp at h
  | cons c r2 =>
    rw [gapEq_eval_cons hd] at h
    by_cases hc : (c = '=' || c = ':') = true
    · rw [if_pos hc] at h
      simp only [Option.some.injEq, Prod.mk.injEq] at h
      obtain ⟨rfl, rfl⟩ := h
      refine ⟨l.takeWhile pySpace, c, r2.takeWhile pySpace, rfl,
        fun x hx => List.mem_takeWhile_imp hx, by simpa using hc,
        fun x hx => List.mem_takeWhile_imp hx, ?_, ?_⟩
      · have e2 : r2.takeWhile pySpace ++ r2.dropWhile pySpace = r2 :=
          List.takeWhile_append_dropWhile pySpace r2
        conv_lhs => rw [← List.takeWhile_append_dropWhile pySpace l, hd]
        simp [e2]
      · exact dropWhile_head_false pySpace r2
    · rw [if_neg hc] at h; simp at h

/-- The facts the substitution proofs need about the
password/key/secret separator. -/
theorem gapEq_spec : GapSpec gapEq := by
  constructor
  · intro l g r h
    obtain ⟨_, _, _, _, _, _, _, hl, _⟩ := gapEq_inv h
    exact hl
  · intro l g r h
    obtain ⟨sp1, c, tw, rfl, _⟩ := gapEq_inv h
    simp
  · intro l g r h c0 hc0
    obtain ⟨sp1, c, tw, rfl, hsp1, hc, htw, _⟩ := gapEq_inv h
    rcases List.mem_append.mp hc0 with h1 | h1
    · simp [gapCharOK, hsp1 c0 h1]
    · rcases List.mem_cons.mp h1 with rfl | h2
      · rcases hc with rfl | rfl <;> simp [gapCharOK]
      · simp [gapCharOK, htw c0 h2]
  · intro l g r h
    obtain ⟨sp1, c, tw, rfl, hsp1, hc, htw, _⟩ := gapEq_inv h
    cases sp1 with
    | nil =>
      refine ⟨c, tw, rfl, ?_⟩
      rcases hc with rfl | rfl <;> simp [gapHeadOK]
    | cons a sp1' =>
      exact ⟨a, sp1' ++ c :: tw, rfl,
        by simp [gapHeadOK, hsp1 a (List.mem_cons_self a sp1')]⟩
  · intro l g r h
    obtain ⟨_, _, _, _, _, _, _, _, hr⟩ := gapEq_inv h
    exact hr
  · intro l g r h r2 hr2
    obtain ⟨sp1, c, tw, rfl, hsp1, hc, htw, _, _⟩ := gapEq_inv h
    have hcns : pySpace c = false := by
      rcases hc with rfl | rfl <;> decide
    have e1 := takeWhile_append_exact (p := pySpace)
      (w := c :: (tw ++ r2)) hsp1 (Or.inr ⟨c, tw ++ r2, rfl, hcns⟩)
    have e2 := takeWhile_append_exact (p := pySpace) (w := r2) htw hr2
    have hassoc : (sp1 ++ c :: tw) ++ r2 = sp1 ++ (c :: (tw ++ r2)) := by
      simp
    have hd : ((sp1 ++ c :: tw) ++ r2).dropWhile pySpace =
        c :: (tw ++ r2) := by
      rw [hassoc]; exact e1.2
    rw [gapEq_eval_cons hd]
    have hcok : (c = '=' || c = ':') = true := by
      rcases hc with rfl | rfl <;> simp
    rw [if_pos hcok]
    have ht : ((sp1 ++ c :: tw) ++ r2).takeWhile pySpace = sp1 := by
      rw [hassoc]; exact e1.1
    rw [ht, e2.1, e2.2]

/-- Canonical decomposition of a successful md5 separator parse. -/
theorem gapMd5_inv {l g r : List Char} (h : gapMd5 l = some (g, r)) :
    ∃ sp1 ds sp2, g = sp1 ++ ds ++ sp2 ∧ sp1 ≠ [] ∧ ds ≠ [] ∧ sp2 ≠ [] ∧
      (∀ x ∈ sp1, pySpace x = true) ∧ (∀ x ∈ ds, pyDigit x = true) ∧
      (∀ x ∈ sp2, pySpace x = true) ∧ l = g ++ r ∧ nonspaceHead r := by
  obtain ⟨sp1, bc, r1, h1, h2, rfl⟩ := pseq_eq_some h
  obtain ⟨ds, sp2, r2, h3, h4, rfl⟩ := pseq_eq_some h2
  obtain ⟨e1, e2, e3, _⟩ := takeWhile1_eq_some h1
  obtain ⟨e4, e5, e6, _⟩ := takeWhile1_eq_some h3
  obtain ⟨e7, e8, e9, e10⟩ := takeWhile1_eq_some h4
  exact ⟨sp1, ds, sp2, by simp, e2, e5, e8, e3, e6, e9,
    by rw [e1, e4, e7]; simp, e10⟩

/-- The facts the substitution proofs need about the md5 separator. -/
theorem gapMd5_spec : GapSpec gapMd5 := by
  constructor
  · intro l g r h
    obtain ⟨_, _, _, _, _, _, _, _, _, _, hl, _⟩ := gapMd5_inv h
    exact hl
  · intro l g r h
    obtain ⟨sp1, ds, sp2, rfl, hne, _⟩ := gapMd5_inv h
    simp [hne]
  · intro l g r h c0 hc0
    obtain ⟨sp1, ds, sp2, rfl, _, _, _, h5, h6, h7, _⟩ := gapMd5_inv h
    rcases List.mem_append.mp hc0 with h1 | h1
    · rcases List.mem_append.mp h1 with h2 | h2
      · simp [gapCharOK, h5 c0 h2]
      · simp [gapCharOK, h6 c0 h2]
    · simp [gapCharOK, h7 c0 h1]
  · intro l g r h
    obtain ⟨sp1, ds, sp2, rfl, hne, _, _, h5, _⟩ := gapMd5_inv h
    cases sp1 with
    | nil => exact absurd rfl hne
    | cons a sp1' =>
      exact ⟨a, sp1' ++ ds ++ sp2, by simp,
        by simp [gapHeadOK, h5 a (List.mem_cons_self a sp1')]⟩
  · intro l g r h
    obtain ⟨_, _, _, _, _, _, _, _, _, _, _, hr⟩ := gapMd5_inv h
    exact hr
  · intro l g r h r2 hr2
    obtain ⟨sp1, ds, sp2, rfl, hn1, hn2, hn3, h5, h6, h7, _, _⟩ :=
      gapMd5_inv h
    obtain ⟨d0, ds', rfl⟩ : ∃ d0 ds', ds = d0 :: ds' := by
      cases ds with
      | nil => exact absurd rfl hn2
      | cons d0 ds' => exact ⟨d0, ds', rfl⟩
    obtain ⟨s0, sp2', rfl⟩ : ∃ s0 sp2', sp2 = s0 :: sp2' := by
      cases sp2 with
      | nil => exact absurd rfl hn3
      | cons s0 sp2' => exact ⟨s0, sp2', rfl⟩
    have e1 : spaces1
        (sp1 ++ ((d0 :: ds') ++ ((s0 :: sp2') ++ r2))) =
        some (sp1, (d0 :: ds') ++ ((s0 :: sp2') ++ r2)) :=
      takeWhile1_replay hn1 h5
        (Or.inr ⟨d0, _, rfl,
          digit_not_space d0 (h6 d0 (List.mem_cons_self d0 ds'))⟩)
    have e2 : digits1 ((d0 :: ds') ++ ((s0 :: sp2') ++ r2)) =
        some (d0 :: ds', (s0 :: sp2') ++ r2) :=
      takeWhile1_replay (by simp) h6
        (Or.inr ⟨s0, _, rfl,
          space_not_digit s0 (h7 s0 (List.mem_cons_self s0 sp2'))⟩)
    have e3 : spaces1 ((s0 :: sp2') ++ r2) =
        some (s0 :: sp2', r2) :=
      takeWhile1_replay (w := r2) (by simp) h7 hr2
    show pseq spaces1 (pseq digits1 spaces1) _ = _
    have hassoc : (sp1 ++ (d0 :: ds') ++ (s0 :: sp2')) ++ r2 =
        sp1 ++ ((d0 :: ds') ++ ((s0 :: sp2') ++ r2)) := by
      simp
    rw [hassoc, pseq_some_eval (q := pseq digits1 spaces1) e1]
    have einner : pseq digits1 spaces1
        ((d0 :: ds') ++ ((s0 :: sp2') ++ r2)) =
        some ((d0 :: ds') ++ (s0 :: sp2'), r2) := by
      rw [pseq_some_eval (q := spaces1) e2, e3]
    rw [einner]
    simp [List.append_assoc]

/-- The facts the substitution proofs need about the community
separator. -/
theorem gapSp_spec : GapSpec gapSp := by
  constructor
  · intro l g r h
    exact (takeWhile1_eq_some h).1
  · intro l g r h
    exact (takeWhile1_eq_some h).2.1
  · intro l g r h c0 hc0
    simp [gapCharOK, (takeWhile1_eq_some h).2.2.1 c0 hc0]
  · intro l g r h
    obtain ⟨_, hne, hall, _⟩ := takeWhile1_eq_some h
    cases hg : g with
    | nil => exact absurd hg hne
    | cons a g' =>
      exact ⟨a, g', rfl,
        by simp [gapHeadOK, hall a (by rw [hg]; exact List.mem_cons_self a g')]⟩
  · intro l g r h
    exact (takeWhile1_eq_some h).2.2.2
  · intro l g r h r2 hr2
    obtain ⟨_, hne, hall, _⟩ := takeWhile1_eq_some h
    exact takeWhile1_replay (w := r2) hne hall hr2

/-! ## C4: facts about the whole pattern matchers -/

/-- The keyword facts for password. -/
theorem kwFacts_password : KwFacts kwPassword := by
  refine ⟨by decide, ?_, by decide, by decide⟩
  intro k0 ks h
  cases h
  decide

/-- The keyword facts for key. -/
theorem kwFacts_key : KwFacts kwKey := by
  refine ⟨by decide, ?_, by decide, by decide⟩
  intro k0 ks h
  cases h
  decide

/-- The keyword facts for secret. -/
theorem kwFacts_secret : KwFacts kwSecret := by
  refine ⟨by decide, ?_, by decide, by decide⟩
  intro k0 ks h
  cases h
  decide

/-- The keyword facts for md5. -/
theorem kwFacts_md5 : KwFacts kwMd5 := by
  refine ⟨by decide, ?_, by decide, by decide⟩
  intro k0 ks h
  cases h
  decide

/-- The keyword facts for community. -/
theorem kwFacts_community : KwFacts kwCommunity := by
  refine ⟨by decide, ?_, by decide, by decide⟩
  intro k0 ks h
  cases h
  decide

/-- Evaluation of a pattern once its keyword has been stripped. -/
theorem kwMatch_eval {kw : List Char} {gap : Piece} {l kc r1 : List Char}
    (hd : dropKw kw l = some (kc, r1)) :
    kwMatch kw gap l =
      (match gap r1 with
       | none => none
       | some (g, r2) =>
         match nonspace1 r2 with
         | none => none
         | some (tok, r3) => some (kc ++ g, tok, r3)) := by
  unfold kwMatch
  rw [hd]

/-- Inversion of a successful pattern match: the group-1 region splits
into keyword characters and a separator region, group 2 is a maximal
nonempty nonspace token, and the rest starts with whitespace or is
empty. -/
theorem kwMatch_inv {kw : List Char} {gap : Piece} (hg : GapSpec gap)
    {l g1 g2 r : List Char} (h : kwMatch kw gap l = some (g1, g2, r)) :
    ∃ kc g, g1 = kc ++ g ∧ kc.map Char.toLower = kw ∧
      gap (g ++ (g2 ++ r)) = some (g, g2 ++ r) ∧
      l = (g1 ++ g2) ++ r ∧ g2 ≠ [] ∧
      (∀ c ∈ g2, pySpace c = false) ∧ spaceHead r ∧
      (∀ c ∈ g, gapCharOK c = true) ∧
      (∃ c0 gt, g = c0 :: gt ∧ gapHeadOK c0 = true) := by
  cases hd : dropKw kw l with
  | none =>
    unfold kwMatch at h
    rw [hd] at h
    simp at h
  | some x =>
    obtain ⟨kc, r1⟩ := x
    rw [kwMatch_eval hd] at h
    cases hgp : gap r1 with
    | none => rw [hgp] at h; simp at h
    | some y =>
      obtain ⟨g, r2⟩ := y
      have h2 : (match gap r1 with
          | none => none
          | some (g, r2) =>
            match nonspace1 r2 with
            | none => none
            | some (tok, r3) => some (kc ++ g, tok, r3)) =
          (match nonspace1 r2 with
           | none => none
           | some (tok, r3) => some (kc ++ g, tok, r3)) := by
        rw [hgp]
      rw [h2] at h
      cases ht : nonspace1 r2 with
      | none => rw [ht] at h; simp at h
      | some z =>
        obtain ⟨tok, r3⟩ := z
        rw [ht] at h
        simp only [Option.some.injEq, Prod.mk.injEq] at h
        obtain ⟨rfl, rfl, rfl⟩ := h
        obtain ⟨e1, e2⟩ := dropKw_eq_some hd
        have e3 := hg.split r1 g r2 hgp
        obtain ⟨e4, e5, e6, e7⟩ := takeWhile1_eq_some ht
        have htok : ∀ c ∈ tok, pySpace c = false := by
          intro c hc
          have := e6 c hc
          simpa using this
        have hsp : spaceHead r3 := by
          rcases e7 with rfl | ⟨c, cs, rfl, hc⟩
          · exact Or.inl rfl
          · exact Or.inr ⟨c, cs, rfl, by simpa using hc⟩
        have hl : l = ((kc ++ g) ++ tok) ++ r3 := by
          rw [e1, e3, e4]; simp
        have hgap2 : gap (g ++ (tok ++ r3)) = some (g, tok ++ r3) := by
          rw [← e4, ← e3]; exact hgp
        exact ⟨kc, g, rfl, e2, hgap2, hl, e5, htok, hsp,
          hg.chars r1 g r2 hgp, hg.headOK r1 g r2 hgp⟩

/-- A pattern match fails on an empty list. -/
theorem kwMatch_none_nil {kw : List Char} {gap : Piece}
    (hk : KwFacts kw) : kwMatch kw gap [] = none := by
  cases hkw : kw with
  | nil => exact absurd hkw hk.ne
  | cons k0 ks =>
    unfold kwMatch
    rw [dropKw_nil]

/-- A pattern match fails when the first character is a separator
character or an asterisk. -/
theorem kwMatch_none_head {kw : List Char} {gap : Piece}
    (hk : KwFacts kw) {c : Char} {cs : List Char}
    (hc : gapCharOK c = true ∨ c = '*') :
    kwMatch kw gap (c :: cs) = none := by
  cases hkw : kw with
  | nil => exact absurd hkw hk.ne
  | cons k0 ks =>
    have hmem : k0 ∈ kwHeads := hk.headsOK k0 ks hkw
    have hne : k0 ≠ c.toLower := by
      rcases hc with hc | rfl
      · exact fun he => gapCharOK_not_kwhead c hc k0 hmem he.symm
      · exact fun he => star_not_kwhead k0 hmem he.symm
    unfold kwMatch
    rw [dropKw_none_of_head hne]

/-- A pattern match fails when the first character is whitespace. -/
theorem kwMatch_none_space {kw : List Char} {gap : Piece}
    (hk : KwFacts kw) {c : Char} {cs : List Char}
    (hc : pySpace c = true) :
    kwMatch kw gap (c :: cs) = none :=
  kwMatch_none_head hk (Or.inl (by simp [gapCharOK, hc]))

/-- The mask characters are all asterisks and nonspace. -/
theorem maskStr_facts : maskStr ≠ [] ∧ (∀ c ∈ maskStr, c = '*') ∧
    (∀ c ∈ maskStr, pySpace c = false) := by decide

/-- A pattern rematches its own replacement: keyword characters, then
the same separator region, then the mask as the token, leaving the
continuation untouched. -/
theorem kwMatch_selfmask {kw : List Char} {gap : Piece}
    (hg : GapSpec gap) {kc g r0 : List Char}
    (hkc : kc.map Char.toLower = kw)
    (hgap : gap (g ++ r0) = some (g, r0))
    {w : List Char} (hw : spaceHead w) :
    kwMatch kw gap (kc ++ (g ++ (maskStr ++ w))) =
      some (kc ++ g, maskStr, w) := by
  have h2 : gap (g ++ (maskStr ++ w)) = some (g, maskStr ++ w) :=
    hg.replay (g ++ r0) g r0 hgap (maskStr ++ w)
      (Or.inr ⟨'*', _, rfl, by decide⟩)
  have h3 : nonspace1 (maskStr ++ w) = some (maskStr, w) := by
    refine takeWhile1_replay (w := w) maskStr_facts.1
      (fun c hc => by simp [maskStr_facts.2.2 c hc]) ?_
    rcases hw with rfl | ⟨c, cs, rfl, hc⟩
    · exact Or.inl rfl
    · exact Or.inr ⟨c, cs, rfl, by simp [hc]⟩
  rw [kwMatch_eval (dropKw_replay hkc (g ++ (maskStr ++ w))), h2]
  show (match nonspace1 (maskStr ++ w) with
        | none => none
        | some (tok, r3) => some (kc ++ g, tok, r3)) =
      some (kc ++ g, maskStr, w)
  rw [h3]

/-- The scan of the empty text. -/
theorem subScan_nil (m : SubMatcher) : subScan m [] = [] := by
  rw [subScan]

/-- The scan steps over a position where the pattern does not match. -/
theorem subScan_cons_none (m : SubMatcher) {c : Char} {cs : List Char}
    (hm : m (c :: cs) = none) :
    subScan m (c :: cs) = c :: subScan m cs := by
  rw [subScan]
  have ht : tryMatch m (c :: cs) = none := by
    unfold tryMatch
    rw [hm]
  rw [ht]

/-- The scan emits group 1 and the mask at a match and continues after
it. -/
theorem subScan_cons_some (m : SubMatcher) {c : Char}
    {cs g1 g2 r : List Char} (hm : m (c :: cs) = some (g1, g2, r))
    (hsp : c :: cs = g1 ++ g2 ++ r) (hne : g2 ≠ []) :
    subScan m (c :: cs) = g1 ++ maskStr ++ subScan m r := by
  rw [subScan]
  have ht : tryMatch m (c :: cs) = some ⟨(g1, g2, r), ⟨hsp, hne⟩⟩ := by
    unfold tryMatch
    simp only [hm]
    rw [dif_pos ⟨hsp, hne⟩]
  rw [ht]

/-! ## C4: the rewrite relation between a text and its scan image -/

/-- Case analysis on the rewrite relation. -/
theorem Rw_cases {u v : List Char} (h : Rw u v) :
    (u = [] ∧ v = []) ∨
    (∃ c u' v', u = c :: u' ∧ v = c :: v' ∧ Rw u' v') ∨
    (∃ g2 u' v', u = g2 ++ u' ∧ v = maskStr ++ v' ∧ g2 ≠ [] ∧
      (∀ c ∈ g2, pySpace c = false) ∧ spaceHead u' ∧ Rw u' v') := by
  cases h with
  | nil => exact Or.inl ⟨rfl, rfl⟩
  | keep c h' => exact Or.inr (Or.inl ⟨c, _, _, rfl, rfl, h'⟩)
  | block g2 hne hns hsp h' =>
    exact Or.inr (Or.inr ⟨g2, _, _, rfl, rfl, hne, hns, hsp, h'⟩)

/-- The rewrite relation relates only the empty list to the empty
list. -/
theorem Rw_nil_right {u : List Char} (h : Rw u []) : u = [] := by
  rcases Rw_cases h with ⟨rfl, _⟩ | ⟨c, u', v', rfl, hv, _⟩ |
    ⟨g2, u', v', rfl, hv, _⟩
  · rfl
  · exact absurd hv (by simp)
  · exact absurd hv (by simp [maskStr])

/-- A known asterisk-free prefix of the image is carried verbatim by
the rewrite relation. -/
theorem Rw_strip_exact {pfx : List Char} :
    ∀ {u v v₁ : List Char}, Rw u v → v = pfx ++ v₁ →
    (∀ c ∈ pfx, c ≠ '*') → ∃ u₁, u = pfx ++ u₁ ∧ Rw u₁ v₁ := by
  induction pfx with
  | nil =>
    intro u v v₁ h hv _
    simp only [List.nil_append] at hv
    subst hv
    exact ⟨u, rfl, h⟩
  | cons p ps ih =>
    intro u v v₁ h hv hstar
    subst hv
    rcases Rw_cases h with ⟨rfl, hv0⟩ | ⟨c, u', v', rfl, hveq, h'⟩ |
      ⟨g2, u', v', rfl, hveq, hne, hns, hsp, h'⟩
    · exact absurd hv0 (by simp)
    · obtain ⟨h1, h2⟩ : p = c ∧ ps ++ v₁ = v' := by
        have := hveq
        simp only [List.cons_append] at this
        injection this with a b
        exact ⟨a, b⟩
      subst h1
      subst h2
      obtain ⟨u₁, hu, hr⟩ := ih h' rfl
        (fun x hx => hstar x (List.mem_cons_of_mem p hx))
      exact ⟨u₁, by rw [hu, List.cons_append], hr⟩
    · exfalso
      have hp : p = '*' := by
        have := hveq
        simp only [maskStr, List.replicate, List.cons_append,
          List.cons.injEq] at this
        exact this.1
      exact hstar p (List.mem_cons_self p ps) hp

/-- The rewrite relation is a congruence for prepending a common
prefix. -/
theorem Rw_append_left (w : List Char) {u v : List Char} (h : Rw u v) :
    Rw (w ++ u) (w ++ v) := by
  induction w with
  | nil => simpa using h
  | cons c w' ih => exact Rw.keep c ih

/-- The rewrite relation preserves a whitespace (or empty) head. -/
theorem Rw_spaceHead {u v : List Char} (h : Rw u v)
    (hu : spaceHead u) : spaceHead v := by
  rcases Rw_cases h with ⟨rfl, rfl⟩ | ⟨c, u', v', rfl, rfl, h'⟩ |
    ⟨g2, u', v', rfl, rfl, hne, hns, hsp, h'⟩
  · exact Or.inl rfl
  · rcases hu with h0 | ⟨c0, cs0, heq, hc0⟩
    · exact absurd h0 (by simp)
    · injection heq with h1 h2
      exact Or.inr ⟨c0, v', by rw [h1], hc0⟩
  · exfalso
    cases g2 with
    | nil => exact hne rfl
    | cons d g2' =>
      rcases hu with h0 | ⟨c0, cs0, heq, hc0⟩
      · exact absurd h0 (by simp)
      · have hd0 : d = c0 := by
          simpa using congrArg (List.headD · ' ') heq
        rw [← hd0] at hc0
        rw [hns d (List.mem_cons_self d g2')] at hc0
        exact absurd hc0 (by simp)

/-- A nonspace head of the image has a nonspace-headed source. -/
theorem Rw_head_nonspace {u v : List Char} (h : Rw u v) {c : Char}
    {v' : List Char} (hv : v = c :: v') (hc : pySpace c = false) :
    ∃ d u', u = d :: u' ∧ pySpace d = false := by
  subst hv
  rcases Rw_cases h with ⟨rfl, hv0⟩ | ⟨c0, u', v₀, rfl, hveq, h'⟩ |
    ⟨g2, u', v₀, rfl, hveq, hne, hns, hsp, h'⟩
  · exact absurd hv0 (by simp)
  · have hcc : c0 = c := by
      injection hveq with a b
      exact a.symm
    exact ⟨c0, u', rfl, by rw [hcc]; exact hc⟩
  · cases g2 with
    | nil => exact absurd rfl hne
    | cons d g2' =>
      exact ⟨d, g2' ++ u', rfl, hns d (List.mem_cons_self d g2')⟩

/-- takeWhile1 succeeds when the head satisfies the class. -/
theorem takeWhile1_cons_pos {p : Char → Bool} {c : Char}
    (cs : List Char) (hc : p c = true) :
    ∃ t r, takeWhile1 p (c :: cs) = some (t, r) := by
  unfold takeWhile1
  simp [List.takeWhile_cons, hc]

/-- A text rewrites to its scan image. -/
theorem subScan_Rw {kw : List Char} {gap : Piece} (hg : GapSpec gap) :
    ∀ s, Rw s (subScan (kwMatch kw gap) s) := by
  suffices H : ∀ n (s : List Char), s.length ≤ n →
      Rw s (subScan (kwMatch kw gap) s) from
    fun s => H s.length s le_rfl
  intro n
  induction n with
  | zero =>
    intro s hs
    have : s = [] := by
      cases s with
      | nil => rfl
      | cons a t => simp at hs
    subst this
    rw [subScan_nil]
    exact Rw.nil
  | succ n ih =>
    intro s hs
    cases s with
    | nil => rw [subScan_nil]; exact Rw.nil
    | cons c cs =>
      cases hm : kwMatch kw gap (c :: cs) with
      | none =>
        rw [subScan_cons_none _ hm]
        have hcs : cs.length ≤ n := by
          simp only [List.length_cons] at hs
          omega
        exact Rw.keep c (ih cs hcs)
      | some x =>
        obtain ⟨g1, g2, r⟩ := x
        obtain ⟨kc, g, hg1, hkc, hgap, hl, hne, htok, hsp, _, _⟩ :=
          kwMatch_inv hg hm
        rw [subScan_cons_some _ hm (by rw [hl]) hne]
        have hrlen : r.length ≤ n := by
          have hlen := congrArg List.length hl
          simp only [List.length_cons, List.length_append] at hlen hs
          have hg2 : 0 < g2.length := List.length_pos.mpr hne
          omega
        have hr : Rw r (subScan (kwMatch kw gap) r) := ih r hrlen
        have hblock : Rw (g2 ++ r)
            (maskStr ++ subScan (kwMatch kw gap) r) :=
          Rw.block g2 hne htok hsp hr
        have hfull := Rw_append_left g1 hblock
        rw [hl]
        simpa [List.append_assoc] using hfull

/-- Match transfer: when the pattern matches the scan image of a text,
it also matches the text itself. -/
theorem kwMatch_transfer {kw : List Char} {gap : Piece}
    (hg : GapSpec gap) (hk : KwFacts kw) {u v : List Char}
    (hr : Rw u v) {g1 g2 r : List Char}
    (h : kwMatch kw gap v = some (g1, g2, r)) :
    ∃ y, kwMatch kw gap u = some y := by
  obtain ⟨kc, g, hg1, hkc, hgap, hl, hne, htok, hsp, hgchars, _⟩ :=
    kwMatch_inv hg h
  have hstar_kc : ∀ c ∈ kc, c ≠ '*' := by
    intro c hc he
    have hmem : ('*' : Char).toLower ∈ kw := by
      rw [← hkc]
      exact List.mem_map.mpr ⟨c, hc, by rw [he]⟩
    have : ('*' : Char).toLower = '*' := by decide
    rw [this] at hmem
    exact hk.noStar '*' hmem rfl
  have hv : v = kc ++ (g ++ (g2 ++ r)) := by
    rw [hl, hg1]; simp
  obtain ⟨u₁, hu1, hr1⟩ := Rw_strip_exact hr hv hstar_kc
  have hstar_g : ∀ c ∈ g, c ≠ '*' :=
    fun c hc => gapCharOK_ne_star c (hgchars c hc)
  obtain ⟨u₂, hu2, hr2⟩ := Rw_strip_exact hr1 rfl hstar_g
  obtain ⟨t0, g2', rfl⟩ : ∃ t0 g2', g2 = t0 :: g2' := by
    cases g2 with
    | nil => exact absurd rfl hne
    | cons t0 g2' => exact ⟨t0, g2', rfl⟩
  have ht0 : pySpace t0 = false := htok t0 (List.mem_cons_self t0 g2')
  obtain ⟨d, u₃, hu3, hd⟩ := Rw_head_nonspace hr2 rfl ht0
  have hgap_u : gap (g ++ u₂) = some (g, u₂) := by
    refine hg.replay _ _ _ hgap u₂ ?_
    exact Or.inr ⟨d, u₃, hu3, hd⟩
  obtain ⟨t, r', htr⟩ :=
    takeWhile1_cons_pos (p := fun c => !pySpace c) (c := d) u₃
      (by simp [hd])
  refine ⟨(kc ++ g, t, r'), ?_⟩
  rw [hu1, hu2]
  rw [kwMatch_eval (dropKw_replay hkc (g ++ u₂)), hgap_u]
  show (match nonspace1 u₂ with
        | none => none
        | some (tok, r3) => some (kc ++ g, tok, r3)) =
      some (kc ++ g, t, r')
  rw [hu3]
  rw [show nonspace1 (d :: u₃) = some (t, r') from hu3 ▸ htr]

/-! ## C4: failure of a pattern strictly inside a masked block -/

/-- Dropping past a whole left part. -/
theorem drop_append_len {α : Type} (a : List α) (b : List α) (n : Nat) :
    (a ++ b).drop (a.length + n) = b.drop n := by
  induction a with
  | nil => simp
  | cons x a ih => simpa [Nat.succ_add] using ih

/-- Dropping inside the left part of an append. -/
theorem drop_append_le {α : Type} :
    ∀ (a b : List α) (n : Nat), n ≤ a.length →
    (a ++ b).drop n = a.drop n ++ b := by
  intro a
  induction a with
  | nil =>
    intro b n h
    have : n = 0 := Nat.le_zero.mp (by simpa using h)
    subst this
    simp
  | cons x a ih =>
    intro b n h
    cases n with
    | zero => simp
    | succ m =>
      have hm : m ≤ a.length := by simpa using h
      simpa using ih b m hm

/-- The head that dropping inside a list exposes is a member of the
list. -/
theorem drop_head_mem {α : Type} :
    ∀ (l : List α) (j : Nat), j < l.length →
    ∃ c cs, l.drop j = c :: cs ∧ c ∈ l := by
  intro l
  induction l with
  | nil => intro j h; simp at h
  | cons x t ih =>
    intro j h
    cases j with
    | zero => exact ⟨x, t, rfl, List.mem_cons_self x t⟩
    | succ m =>
      obtain ⟨c, cs, e, hm⟩ := ih m (by simpa using h)
      exact ⟨c, cs, by simpa using e, List.mem_cons_of_mem x hm⟩

/-- The keyword strip fails when the keyword fits inside the leading
region but differs from it (case-insensitively). -/
theorem dropKw_sub_slice {kw : List Char} :
    ∀ {u : List Char} (r : List Char), kw.length ≤ u.length →
    (u.take kw.length).map Char.toLower ≠ kw →
    dropKw kw (u ++ r) = none := by
  induction kw with
  | nil =>
    intro u r _ hne
    exact absurd (by simp) hne
  | cons k ks ih =>
    intro u r hlen hne
    cases u with
    | nil => simp at hlen
    | cons c u' =>
      by_cases hk : k = c.toLower
      · have hne' : (u'.take ks.length).map Char.toLower ≠ ks := by
          intro he
          exact hne (by simp [List.take_succ_cons, he, hk])
        have hrec : dropKw ks (u' ++ r) = none :=
          ih r (by simpa using hlen) hne'
        show dropKw (k :: ks) (c :: (u' ++ r)) = none
        simp [dropKw, hk, hrec]
      · show dropKw (k :: ks) (c :: (u' ++ r)) = none
        simp [dropKw, hk]

/-- The keyword strip fails when the keyword outruns the leading
region and the boundary character cannot belong to any keyword. -/
theorem dropKw_boundary {kw : List Char} :
    ∀ {u : List Char} {c0 : Char} (r : List Char),
    u.length < kw.length → (∀ k ∈ kw, c0.toLower ≠ k) →
    dropKw kw (u ++ c0 :: r) = none := by
  induction kw with
  | nil => intro u c0 r h _; simp at h
  | cons k ks ih =>
    intro u c0 r hlen hc0
    cases u with
    | nil =>
      have : k ≠ c0.toLower :=
        fun he => hc0 k (List.mem_cons_self k ks) he.symm
      show dropKw (k :: ks) (c0 :: r) = none
      simp [dropKw, this]
    | cons c u' =>
      by_cases hk : k = c.toLower
      · have hrec : dropKw ks (u' ++ c0 :: r) = none :=
          ih r (by simpa using hlen)
            (fun x hx => hc0 x (List.mem_cons_of_mem k hx))
        show dropKw (k :: ks) (c :: (u' ++ c0 :: r)) = none
        simp [dropKw, hk, hrec]
      · show dropKw (k :: ks) (c :: (u' ++ c0 :: r)) = none
        simp [dropKw, hk]

/-- A pattern never matches strictly inside the group-1-plus-mask
region of a masked block, whatever follows the block. -/
theorem kwMatch_block_interior {kwA kwB : List Char} {gapB : Piece}
    (hkB : KwFacts kwB) {kcA gA : List Char}
    (hkcA : kcA.map Char.toLower = kwA)
    (hgA : ∀ c ∈ gA, gapCharOK c = true)
    (hgAh : ∃ c0 gt, gA = c0 :: gt ∧ gapHeadOK c0 = true)
    (hclash : kwClash kwB kwA) (w : List Char) :
    ∀ q, 0 < q → q < kcA.length + gA.length + 8 →
    kwMatch kwB gapB ((kcA ++ (gA ++ (maskStr ++ w))).drop q) = none := by
  intro q hq0 hqlt
  rcases Nat.lt_or_ge q kcA.length with hq1 | hq1
  · -- inside the keyword region
    have hdrop : (kcA ++ (gA ++ (maskStr ++ w))).drop q =
        kcA.drop q ++ (gA ++ (maskStr ++ w)) :=
      drop_append_le kcA _ q (Nat.le_of_lt hq1)
    rw [hdrop]
    rcases Nat.lt_or_ge kcA.length (q + kwB.length) with hq2 | hq2
    · -- the keyword outruns the remaining keyword characters
      obtain ⟨c0, gt, rfl, hhead⟩ := hgAh
      have hlen : (kcA.drop q).length < kwB.length := by
        rw [List.length_drop]
        omega
      have hc0 : ∀ k ∈ kwB, c0.toLower ≠ k :=
        fun k hk => gapHeadOK_not_kwchar c0 hhead k (hkB.inAll k hk)
      have hfail := dropKw_boundary (u := kcA.drop q)
        (gt ++ (maskStr ++ w)) hlen hc0
      unfold kwMatch
      rw [show kcA.drop q ++ (c0 :: gt ++ (maskStr ++ w)) =
          kcA.drop q ++ (c0 :: (gt ++ (maskStr ++ w))) by simp, hfail]
    · -- the keyword fits: the slice differs by the clash fact
      have hlen : kwB.length ≤ (kcA.drop q).length := by
        rw [List.length_drop]
        omega
      have hkwAlen : kwA.length = kcA.length := by
        rw [← hkcA, List.length_map]
      have hne : ((kcA.drop q).take kwB.length).map Char.toLower ≠
          kwB := by
        rw [List.map_take, List.map_drop, hkcA]
        exact fun he => hclash q (by omega) hq0 (by omega) he.symm
      have hfail := dropKw_sub_slice (gA ++ (maskStr ++ w)) hlen hne
      unfold kwMatch
      rw [hfail]
  · rcases Nat.lt_or_ge q (kcA.length + gA.length) with hq2 | hq2
    · -- inside the separator region
      obtain ⟨j, rfl⟩ : ∃ j, q = kcA.length + j :=
        ⟨q - kcA.length, by omega⟩
      have hj : j < gA.length := by omega
      rw [drop_append_len]
      obtain ⟨c, cs, e, hcmem⟩ := drop_head_mem gA j hj
      rw [drop_append_le gA _ j (Nat.le_of_lt hj), e,
        List.cons_append]
      exact kwMatch_none_head hkB (Or.inl (hgA c hcmem))
    · -- inside the mask
      obtain ⟨j, hqe⟩ : ∃ j, q = (kcA.length + gA.length) + j :=
        ⟨q - (kcA.length + gA.length), by omega⟩
      have hj : j < 8 := by omega
      have hsplit : kcA ++ (gA ++ (maskStr ++ w)) =
          (kcA ++ gA) ++ (maskStr ++ w) := by simp
      have hlen2 : (kcA ++ gA).length = kcA.length + gA.length := by
        simp
      rw [hsplit, hqe, ← hlen2, drop_append_len]
      have hjm : j < maskStr.length := by
        simpa [maskStr] using hj
      obtain ⟨c, cs, e, hcmem⟩ := drop_head_mem maskStr j hjm
      rw [drop_append_le maskStr _ j (Nat.le_of_lt hjm), e,
        List.cons_append]
      exact kwMatch_none_head hkB
        (Or.inr (maskStr_facts.2.1 c hcmem))

/-! ## C4: scans over masked text -/

/-- The scan keeps the head and moves on when the matcher reports a
split that fails the consumption guard. -/
theorem subScan_cons_badmatch (m : SubMatcher) {c : Char}
    {cs g1 g2 r : List Char} (hm : m (c :: cs) = some (g1, g2, r))
    (hbad : ¬(c :: cs = g1 ++ g2 ++ r ∧ g2 ≠ [])) :
    subScan m (c :: cs) = c :: subScan m cs := by
  rw [subScan]
  have ht : tryMatch m (c :: cs) = none := by
    unfold tryMatch
    simp only [hm]
    rw [dif_neg hbad]
  rw [ht]

/-- The scan copies a region verbatim when the matcher fails at every
offset inside it. -/
theorem subScan_through {m : SubMatcher} :
    ∀ (bl w : List Char),
    (∀ q, q < bl.length → m ((bl ++ w).drop q) = none) →
    subScan m (bl ++ w) = bl ++ subScan m w := by
  intro bl
  induction bl with
  | nil => intro w _; simp
  | cons c bl' ih =>
    intro w hfail
    have h0 : m (c :: (bl' ++ w)) = none := by
      have := hfail 0 (by simp)
      simpa using this
    have hrest : ∀ q, q < bl'.length →
        m ((bl' ++ w).drop q) = none := by
      intro q hq
      have := hfail (q + 1) (by simp only [List.length_cons]; omega)
      simpa using this
    rw [List.cons_append, subScan_cons_none _ h0, ih w hrest,
      List.cons_append]

/-- The scan of a space-headed (or empty) text is space-headed, for a
matcher that fails on whitespace heads. -/
theorem subScan_spaceHead {m : SubMatcher}
    (hm : ∀ (c : Char) (cs : List Char), pySpace c = true →
      m (c :: cs) = none)
    {r : List Char} (hr : spaceHead r) : spaceHead (subScan m r) := by
  rcases hr with rfl | ⟨c, cs, rfl, hc⟩
  · rw [subScan_nil]; exact Or.inl rfl
  · rw [subScan_cons_none _ (hm c cs hc)]
    exact Or.inr ⟨c, _, rfl, hc⟩

/-- Being masked passes to the tail. -/
theorem maskedAt_cons {m : SubMatcher} {c : Char} {cs : List Char}
    (h : MaskedAt m (c :: cs)) : MaskedAt m cs :=
  fun n => h (n + 1)

/-- Being masked passes to any suffix at an append boundary. -/
theorem maskedAt_shift {m : SubMatcher} {a s : List Char}
    (h : MaskedAt m (a ++ s)) : MaskedAt m s := by
  intro n
  have hd := h (a.length + n)
  rwa [drop_append_len] at hd

/-- Substituting over a masked text changes nothing. -/
theorem subScan_eq_self {m : SubMatcher} :
    ∀ s, MaskedAt m s → subScan m s = s := by
  suffices H : ∀ n s, s.length ≤ n → MaskedAt m s →
      subScan m s = s from fun s => H s.length s le_rfl
  intro n
  induction n with
  | zero =>
    intro s hs _
    have : s = [] := by
      cases s with
      | nil => rfl
      | cons a t => simp at hs
    subst this
    exact subScan_nil m
  | succ n ih =>
    intro s hs hmask
    cases s with
    | nil => exact subScan_nil m
    | cons c cs =>
      have hcs : cs.length ≤ n := by
        simp only [List.length_cons] at hs
        omega
      rcases hmask 0 with h0 | ⟨g1, r, h0⟩
      · rw [subScan_cons_none _ h0,
          ih cs hcs (maskedAt_cons hmask)]
      · by_cases hg : c :: cs = g1 ++ maskStr ++ r
        · rw [subScan_cons_some _ h0 hg maskStr_facts.1]
          have hmr : MaskedAt m r := maskedAt_shift (hg ▸ hmask)
          have hrlen : r.length ≤ n := by
            have hlg := congrArg List.length hg
            have hm8 : maskStr.length = 8 := by decide
            simp only [List.length_cons, List.length_append,
              hm8] at hlg
            simp only [List.length_cons] at hs
            omega
          rw [ih r hrlen hmr]
          exact hg.symm
        · rw [subScan_cons_badmatch _ h0 (fun hcon => hg hcon.1),
            ih cs hcs (maskedAt_cons hmask)]

/-! ## C4: one pass masks its own pattern, and other passes keep it
masked -/

/-- After one pass of a pattern, the text is masked for that very
pattern. -/
theorem maskedAt_self {kw : List Char} {gap : Piece} (hg : GapSpec gap)
    (hk : KwFacts kw) (hclash : kwClash kw kw) :
    ∀ s, MaskedAt (kwMatch kw gap) (subScan (kwMatch kw gap) s) := by
  suffices H : ∀ n s, s.length ≤ n →
      MaskedAt (kwMatch kw gap) (subScan (kwMatch kw gap) s) from
    fun s => H s.length s le_rfl
  intro n
  induction n with
  | zero =>
    intro s hs
    have hsnil : s = [] := by
      cases s with
      | nil => rfl
      | cons a t => simp at hs
    subst hsnil
    rw [subScan_nil]
    intro j
    exact Or.inl (by rw [List.drop_nil]; exact kwMatch_none_nil hk)
  | succ n ih =>
    intro s hs
    cases s with
    | nil =>
      rw [subScan_nil]
      intro j
      exact Or.inl (by rw [List.drop_nil]; exact kwMatch_none_nil hk)
    | cons c cs =>
      have hcs : cs.length ≤ n := by
        simp only [List.length_cons] at hs
        omega
      cases hm : kwMatch kw gap (c :: cs) with
      | none =>
        rw [subScan_cons_none _ hm]
        intro j
        cases j with
        | zero =>
          left
          show kwMatch kw gap (c :: subScan (kwMatch kw gap) cs) = none
          cases hmi : kwMatch kw gap
              (c :: subScan (kwMatch kw gap) cs) with
          | none => rfl
          | some x =>
            obtain ⟨a, b, r2⟩ := x
            have hRw : Rw (c :: cs) (c :: subScan (kwMatch kw gap) cs) :=
              Rw.keep c (subScan_Rw hg cs)
            obtain ⟨y, hy⟩ := kwMatch_transfer hg hk hRw hmi
            rw [hm] at hy
            exact absurd hy (by simp)
        | succ j' => exact ih cs hcs j'
      | some x =>
        obtain ⟨g1, g2, r⟩ := x
        obtain ⟨kc, g, hg1, hkc, hgap, hl, hne, htok, hsp, hgchars,
          hghead⟩ := kwMatch_inv hg hm
        rw [subScan_cons_some _ hm hl hne]
        have hrlen : r.length ≤ n := by
          have hlg := congrArg List.length hl
          simp only [List.length_cons, List.length_append] at hlg
          have hg2 : 0 < g2.length := List.length_pos.mpr hne
          omega
        have hmr := ih r hrlen
        have hshape : g1 ++ maskStr ++ subScan (kwMatch kw gap) r =
            kc ++ (g ++ (maskStr ++ subScan (kwMatch kw gap) r)) := by
          rw [hg1]; simp
        intro j
        rcases Nat.eq_zero_or_pos j with rfl | hj0
        · right
          have hsp2 : spaceHead (subScan (kwMatch kw gap) r) :=
            subScan_spaceHead
              (fun c2 cs2 hc2 => kwMatch_none_space hk hc2) hsp
          refine ⟨kc ++ g, subScan (kwMatch kw gap) r, ?_⟩
          show kwMatch kw gap
              (g1 ++ maskStr ++ subScan (kwMatch kw gap) r) =
            some (kc ++ g, maskStr, subScan (kwMatch kw gap) r)
          rw [hshape]
          exact kwMatch_selfmask hg hkc hgap hsp2
        · rcases Nat.lt_or_ge j (g1.length + 8) with hjlt | hjge
          · left
            have hbound : j < kc.length + g.length + 8 := by
              have he : g1.length = kc.length + g.length := by
                rw [hg1]; simp
              omega
            rw [hshape]
            exact kwMatch_block_interior hk hkc hgchars hghead hclash
              (subScan (kwMatch kw gap) r) j hj0 hbound
          · obtain ⟨j2, hj2⟩ : ∃ j2, j = (g1.length + 8) + j2 :=
              ⟨j - (g1.length + 8), by omega⟩
            have hdrop : (g1 ++ maskStr ++
                subScan (kwMatch kw gap) r).drop j =
                (subScan (kwMatch kw gap) r).drop j2 := by
              have hlen : (g1 ++ maskStr).length = g1.length + 8 := by
                simp [maskStr]
              rw [hj2, ← hlen]
              exact drop_append_len (g1 ++ maskStr) _ j2
            rw [hdrop]
            exact hmr j2

/-- A pass of one pattern keeps the text masked for any other pattern
whose keyword starts differently. -/
theorem maskedAt_preserved {kwA kwB : List Char} {gapA gapB : Piece}
    (hgA : GapSpec gapA) (hkA : KwFacts kwA)
    (hgB : GapSpec gapB) (hkB : KwFacts kwB)
    (hBA : kwClash kwB kwA) (hAB : kwClash kwA kwB)
    (hBB : kwClash kwB kwB)
    (hhd : ∀ a0 as b0 bs, kwA = a0 :: as → kwB = b0 :: bs → b0 ≠ a0) :
    ∀ s, MaskedAt (kwMatch kwB gapB) s →
    MaskedAt (kwMatch kwB gapB) (subScan (kwMatch kwA gapA) s) := by
  suffices H : ∀ n s, s.length ≤ n →
      MaskedAt (kwMatch kwB gapB) s →
      MaskedAt (kwMatch kwB gapB) (subScan (kwMatch kwA gapA) s) from
    fun s => H s.length s le_rfl
  intro n
  induction n with
  | zero =>
    intro s hs _
    have hsnil : s = [] := by
      cases s with
      | nil => rfl
      | cons a t => simp at hs
    subst hsnil
    rw [subScan_nil]
    intro j
    exact Or.inl (by rw [List.drop_nil]; exact kwMatch_none_nil hkB)
  | succ n ih =>
    intro s hs hmask
    cases s with
    | nil =>
      rw [subScan_nil]
      intro j
      exact Or.inl (by rw [List.drop_nil]; exact kwMatch_none_nil hkB)
    | cons c cs =>
      have hcs : cs.length ≤ n := by
        simp only [List.length_cons] at hs
        omega
      cases hm : kwMatch kwA gapA (c :: cs) with
      | none =>
        rcases hmask 0 with hB0 | ⟨g1B, rB, hB0⟩
        · -- the other pattern fails at the head too
          have hB0n : kwMatch kwB gapB (c :: cs) = none := hB0
          rw [subScan_cons_none _ hm]
          intro j
          cases j with
          | zero =>
            left
            show kwMatch kwB gapB
              (c :: subScan (kwMatch kwA gapA) cs) = none
            cases hmi : kwMatch kwB gapB
                (c :: subScan (kwMatch kwA gapA) cs) with
            | none => rfl
            | some x =>
              obtain ⟨a, b, r2⟩ := x
              have hRw : Rw (c :: cs)
                  (c :: subScan (kwMatch kwA gapA) cs) :=
                Rw.keep c (subScan_Rw hgA cs)
              obtain ⟨y, hy⟩ := kwMatch_transfer hgB hkB hRw hmi
              rw [hB0n] at hy
              exact absurd hy (by simp)
          | succ j' => exact ih cs hcs (maskedAt_cons hmask) j'
        · -- the other pattern holds a masked block at the head
          have hB0s : kwMatch kwB gapB (c :: cs) =
              some (g1B, maskStr, rB) := hB0
          obtain ⟨kcB, gB, hg1B, hkcB, hgapB2, hlB, hneB, htokB, hspB,
            hgcharsB, hgheadB⟩ := kwMatch_inv hgB hB0s
          have hshapeB : (g1B ++ maskStr) ++ rB =
              kcB ++ (gB ++ (maskStr ++ rB)) := by
            rw [hg1B]; simp
          have hblock : ∀ q, q < (g1B ++ maskStr).length →
              kwMatch kwA gapA (((g1B ++ maskStr) ++ rB).drop q) =
                none := by
            intro q hq
            rcases Nat.eq_zero_or_pos q with rfl | hq0
            · show kwMatch kwA gapA ((g1B ++ maskStr) ++ rB) = none
              rw [← hlB]
              exact hm
            · have hbound : q < kcB.length + gB.length + 8 := by
                have h1 : g1B.length = kcB.length + gB.length := by
                  rw [hg1B]; simp
                have h2 : (g1B ++ maskStr).length = g1B.length + 8 := by
                  simp [maskStr]
                omega
              rw [hshapeB]
              exact kwMatch_block_interior hkA hkcB hgcharsB hgheadB
                hAB rB q hq0 hbound
          have himage : subScan (kwMatch kwA gapA) (c :: cs) =
              (g1B ++ maskStr) ++ subScan (kwMatch kwA gapA) rB := by
            rw [hlB]
            exact subScan_through _ _ hblock
          rw [himage]
          have hrBlen : rB.length ≤ n := by
            have hlg := congrArg List.length hlB
            have hm8 : maskStr.length = 8 := by decide
            simp only [List.length_cons, List.length_append,
              hm8] at hlg
            omega
          have hmaskrB : MaskedAt (kwMatch kwB gapB) rB :=
            maskedAt_shift (hlB ▸ hmask)
          have hrec := ih rB hrBlen hmaskrB
          intro j
          rcases Nat.eq_zero_or_pos j with rfl | hj0
          · right
            have hsp2 : spaceHead (subScan (kwMatch kwA gapA) rB) :=
              subScan_spaceHead
                (fun c2 cs2 hc2 => kwMatch_none_space hkA hc2) hspB
            refine ⟨kcB ++ gB, subScan (kwMatch kwA gapA) rB, ?_⟩
            show kwMatch kwB gapB
                ((g1B ++ maskStr) ++ subScan (kwMatch kwA gapA) rB) =
              some (kcB ++ gB, maskStr,
                subScan (kwMatch kwA gapA) rB)
            have hshape2 : (g1B ++ maskStr) ++
                subScan (kwMatch kwA gapA) rB =
                kcB ++ (gB ++ (maskStr ++
                  subScan (kwMatch kwA gapA) rB)) := by
              rw [hg1B]; simp
            rw [hshape2]
            exact kwMatch_selfmask hgB hkcB hgapB2 hsp2
          · rcases Nat.lt_or_ge j (g1B.length + 8) with hjlt | hjge
            · left
              have hbound : j < kcB.length + gB.length + 8 := by
                have he : g1B.length = kcB.length + gB.length := by
                  rw [hg1B]; simp
                omega
              have hshape2 : (g1B ++ maskStr) ++
                  subScan (kwMatch kwA gapA) rB =
                  kcB ++ (gB ++ (maskStr ++
                    subScan (kwMatch kwA gapA) rB)) := by
                rw [hg1B]; simp
              rw [hshape2]
              exact kwMatch_block_interior hkB hkcB hgcharsB hgheadB
                hBB (subScan (kwMatch kwA gapA) rB) j hj0 hbound
            · obtain ⟨j2, hj2⟩ : ∃ j2, j = (g1B.length + 8) + j2 :=
                ⟨j - (g1B.length + 8), by omega⟩
              have hdrop : ((g1B ++ maskStr) ++
                  subScan (kwMatch kwA gapA) rB).drop j =
                  (subScan (kwMatch kwA gapA) rB).drop j2 := by
                have hlen : (g1B ++ maskStr).length =
                    g1B.length + 8 := by
                  simp [maskStr]
                rw [hj2, ← hlen]
                exact drop_append_len (g1B ++ maskStr) _ j2
              rw [hdrop]
              exact hrec j2
      | some x =>
        obtain ⟨g1A, g2A, rA⟩ := x
        obtain ⟨kcA, gA2, hg1A, hkcA, hgapA2, hlA, hneA, htokA, hspA,
          hgcharsA, hgheadA⟩ := kwMatch_inv hgA hm
        rw [subScan_cons_some _ hm hlA hneA]
        have hrAlen : rA.length ≤ n := by
          have hlg := congrArg List.length hlA
          simp only [List.length_cons, List.length_append] at hlg
          have hg2 : 0 < g2A.length := List.length_pos.mpr hneA
          omega
        have hmaskrA : MaskedAt (kwMatch kwB gapB) rA :=
          maskedAt_shift (hlA ▸ hmask)
        have hrec := ih rA hrAlen hmaskrA
        have hshape : g1A ++ maskStr ++
            subScan (kwMatch kwA gapA) rA =
            kcA ++ (gA2 ++ (maskStr ++
              subScan (kwMatch kwA gapA) rA)) := by
          rw [hg1A]; simp
        intro j
        rcases Nat.eq_zero_or_pos j with rfl | hj0
        · left
          obtain ⟨a0, as, hkwA⟩ : ∃ a0 as, kwA = a0 :: as := by
            cases hkwA0 : kwA with
            | nil => exact absurd hkwA0 hkA.ne
            | cons a0 as => exact ⟨a0, as, rfl⟩
          obtain ⟨b0, bs, hkwB⟩ : ∃ b0 bs, kwB = b0 :: bs := by
            cases hkwB0 : kwB with
            | nil => exact absurd hkwB0 hkB.ne
            | cons b0 bs => exact ⟨b0, bs, rfl⟩
          obtain ⟨cA, kcA', hkcA'⟩ : ∃ cA kcA', kcA = cA :: kcA' := by
            cases hkc0 : kcA with
            | nil =>
              exfalso
              apply hkA.ne
              rw [← hkcA, hkc0]
              rfl
            | cons cA kcA' => exact ⟨cA, kcA', rfl⟩
          have hcALower : cA.toLower = a0 := by
            rw [hkcA', hkwA, List.map_cons] at hkcA
            injection hkcA with e1 e2
          have hb0 : b0 ≠ cA.toLower := by
            rw [hcALower]
            exact hhd a0 as b0 bs hkwA hkwB
          show kwMatch kwB gapB (g1A ++ maskStr ++
            subScan (kwMatch kwA gapA) rA) = none
          rw [hshape, hkcA', List.cons_append, hkwB]
          unfold kwMatch
          rw [dropKw_none_of_head hb0]
        · rcases Nat.lt_or_ge j (g1A.length + 8) with hjlt | hjge
          · left
            have hbound : j < kcA.length + gA2.length + 8 := by
              have he : g1A.length = kcA.length + gA2.length := by
                rw [hg1A]; simp
              omega
            rw [hshape]
            exact kwMatch_block_interior hkB hkcA hgcharsA hgheadA hBA
              (subScan (kwMatch kwA gapA) rA) j hj0 hbound
          · obtain ⟨j2, hj2⟩ : ∃ j2, j = (g1A.length + 8) + j2 :=
              ⟨j - (g1A.length + 8), by omega⟩
            have hdrop : (g1A ++ maskStr ++
                subScan (kwMatch kwA gapA) rA).drop j =
                (subScan (kwMatch kwA gapA) rA).drop j2 := by
              have hlen : (g1A ++ maskStr).length = g1A.length + 8 := by
                simp [maskStr]
              rw [hj2, ← hlen]
              exact drop_append_len (g1A ++ maskStr) _ j2
            rw [hdrop]
            exact hrec j2

/-! ## C4: assembly over the five passes -/

/-- Distinct default heads give the head-difference fact the
preservation lemma wants. -/
theorem head_ne_of_ne {l1 l2 : List Char} {d : Char}
    (h : l1.headD d ≠ l2.headD d) :
    ∀ a0 as b0 bs, l1 = a0 :: as → l2 = b0 :: bs → b0 ≠ a0 := by
  intro a0 as b0 bs h1 h2 he
  apply h
  rw [h1, h2]
  show a0 = b0
  exact he.symm

/-- A second run of the five substitution passes over an already
masked text is the identity, list form. -/
theorem mask_idem_list (l : List Char) :
    subScan mCommunity (subScan mMd5 (subScan mSecret (subScan mKey
      (subScan mPassword (subScan mCommunity (subScan mMd5
      (subScan mSecret (subScan mKey (subScan mPassword l)))))))))
    = subScan mCommunity (subScan mMd5 (subScan mSecret (subScan mKey
      (subScan mPassword l)))) := by
  simp only [mPassword, mKey, mSecret, mMd5, mCommunity]
  have cPP : kwClash kwPassword kwPassword := by unfold kwClash; decide
  have cKK : kwClash kwKey kwKey := by unfold kwClash; decide
  have cSS : kwClash kwSecret kwSecret := by unfold kwClash; decide
  have cMM : kwClash kwMd5 kwMd5 := by unfold kwClash; decide
  have cCC : kwClash kwCommunity kwCommunity := by unfold kwClash; decide
  have cPK : kwClash kwPassword kwKey := by unfold kwClash; decide
  have cKP : kwClash kwKey kwPassword := by unfold kwClash; decide
  have cPS : kwClash kwPassword kwSecret := by unfold kwClash; decide
  have cSP : kwClash kwSecret kwPassword := by unfold kwClash; decide
  have cPM : kwClash kwPassword kwMd5 := by unfold kwClash; decide
  have cMP : kwClash kwMd5 kwPassword := by unfold kwClash; decide
  have cPC : kwClash kwPassword kwCommunity := by unfold kwClash; decide
  have cCP : kwClash kwCommunity kwPassword := by unfold kwClash; decide
  have cKS : kwClash kwKey kwSecret := by unfold kwClash; decide
  have cSK : kwClash kwSecret kwKey := by unfold kwClash; decide
  have cKM : kwClash kwKey kwMd5 := by unfold kwClash; decide
  have cMK : kwClash kwMd5 kwKey := by unfold kwClash; decide
  have cKC : kwClash kwKey kwCommunity := by unfold kwClash; decide
  have cCK : kwClash kwCommunity kwKey := by unfold kwClash; decide
  have cSM : kwClash kwSecret kwMd5 := by unfold kwClash; decide
  have cMS : kwClash kwMd5 kwSecret := by unfold kwClash; decide
  have cSC : kwClash kwSecret kwCommunity := by unfold kwClash; decide
  have cCS : kwClash kwCommunity kwSecret := by unfold kwClash; decide
  have cMC : kwClash kwMd5 kwCommunity := by unfold kwClash; decide
  have cCM : kwClash kwCommunity kwMd5 := by unfold kwClash; decide
  have z1 := subScan (kwMatch kwPassword gapEq) l
  have mP1 : MaskedAt (kwMatch kwPassword gapEq)
      (subScan (kwMatch kwPassword gapEq) l) :=
    maskedAt_self gapEq_spec kwFacts_password cPP l
  have mP2 := maskedAt_preserved gapEq_spec kwFacts_key gapEq_spec
    kwFacts_password cPK cKP cPP
    (head_ne_of_ne (d := ' ') (by decide)) _ mP1
  have mP3 := maskedAt_preserved gapEq_spec kwFacts_secret gapEq_spec
    kwFacts_password cPS cSP cPP
    (head_ne_of_ne (d := ' ') (by decide)) _ mP2
  have mP4 := maskedAt_preserved gapMd5_spec kwFacts_md5 gapEq_spec
    kwFacts_password cPM cMP cPP
    (head_ne_of_ne (d := ' ') (by decide)) _ mP3
  have mP5 := maskedAt_preserved gapSp_spec kwFacts_community
    gapEq_spec kwFacts_password cPC cCP cPP
    (head_ne_of_ne (d := ' ') (by decide)) _ mP4
  have mK2 : MaskedAt (kwMatch kwKey gapEq)
      (subScan (kwMatch kwKey gapEq)
        (subScan (kwMatch kwPassword gapEq) l)) :=
    maskedAt_self gapEq_spec kwFacts_key cKK _
  have mK3 := maskedAt_preserved gapEq_spec kwFacts_secret gapEq_spec
    kwFacts_key cKS cSK cKK
    (head_ne_of_ne (d := ' ') (by decide)) _ mK2
  have mK4 := maskedAt_preserved gapMd5_spec kwFacts_md5 gapEq_spec
    kwFacts_key cKM cMK cKK
    (head_ne_of_ne (d := ' ') (by decide)) _ mK3
  have mK5 := maskedAt_preserved gapSp_spec kwFacts_community
    gapEq_spec kwFacts_key cKC cCK cKK
    (head_ne_of_ne (d := ' ') (by decide)) _ mK4
  have mS3 : MaskedAt (kwMatch kwSecret gapEq)
      (subScan (kwMatch kwSecret gapEq) (subScan (kwMatch kwKey gapEq)
        (subScan (kwMatch kwPassword gapEq) l))) :=
    maskedAt_self gapEq_spec kwFacts_secret cSS _
  have mS4 := maskedAt_preserved gapMd5_spec kwFacts_md5 gapEq_spec
    kwFacts_secret cSM cMS cSS
    (head_ne_of_ne (d := ' ') (by decide)) _ mS3
  have mS5 := maskedAt_preserved gapSp_spec kwFacts_community
    gapEq_spec kwFacts_secret cSC cCS cSS
    (head_ne_of_ne (d := ' ') (by decide)) _ mS4
  have mM4 : MaskedAt (kwMatch kwMd5 gapMd5)
      (subScan (kwMatch kwMd5 gapMd5) (subScan (kwMatch kwSecret gapEq)
        (subScan (kwMatch kwKey gapEq)
          (subScan (kwMatch kwPassword gapEq) l)))) :=
    maskedAt_self gapMd5_spec kwFacts_md5 cMM _
  have mM5 := maskedAt_preserved gapSp_spec kwFacts_community
    gapMd5_spec kwFacts_md5 cMC cCM cMM
    (head_ne_of_ne (d := ' ') (by decide)) _ mM4
  have mC5 : MaskedAt (kwMatch kwCommunity gapSp)
      (subScan (kwMatch kwCommunity gapSp)
        (subScan (kwMatch kwMd5 gapMd5)
          (subScan (kwMatch kwSecret gapEq)
            (subScan (kwMatch kwKey gapEq)
              (subScan (kwMatch kwPassword gapEq) l))))) :=
    maskedAt_self gapSp_spec kwFacts_community cCC _
  rw [subScan_eq_self _ mP5, subScan_eq_self _ mK5,
    subScan_eq_self _ mS5, subScan_eq_self _ mM5,
    subScan_eq_self _ mC5]

/-- Text on which none of the five patterns matches anywhere passes
through all five substitution passes unchanged, list form. -/
theorem mask_nomatch_list (l : List Char)
    (h : hasSensitiveMatch l = false) :
    subScan mCommunity (subScan mMd5 (subScan mSecret (subScan mKey
      (subScan mPassword l)))) = l := by
  have toNone : ∀ (o : Option (List Char × List Char × List Char)),
      o.isSome = false → o = none := by
    intro o ho
    cases o with
    | none => rfl
    | some v => simp at ho
  have hall : ∀ n, n < l.length →
      (mPassword (l.drop n) = none ∧ mKey (l.drop n) = none ∧
       mSecret (l.drop n) = none ∧ mMd5 (l.drop n) = none ∧
       mCommunity (l.drop n) = none) := by
    intro n hn
    have hmem : n ∈ List.range l.length := List.mem_range.mpr hn
    rw [hasSensitiveMatch, List.any_eq_false] at h
    have hfalse : ((mPassword (l.drop n)).isSome ||
        (mKey (l.drop n)).isSome || (mSecret (l.drop n)).isSome ||
        (mMd5 (l.drop n)).isSome ||
        (mCommunity (l.drop n)).isSome) = false :=
      Bool.eq_false_iff.mpr (h n hmem)
    rw [Bool.or_eq_false_iff, Bool.or_eq_false_iff,
      Bool.or_eq_false_iff, Bool.or_eq_false_iff] at hfalse
    obtain ⟨⟨⟨⟨hP, hK⟩, hS⟩, hM⟩, hC⟩ := hfalse
    exact ⟨toNone _ hP, toNone _ hK, toNone _ hS, toNone _ hM,
      toNone _ hC⟩
  have hnil : ∀ n, l.length ≤ n → l.drop n = [] :=
    fun n hn => List.drop_eq_nil_of_le hn
  have mkP : MaskedAt mPassword l := by
    intro n
    left
    rcases Nat.lt_or_ge n l.length with hlt | hge
    · exact (hall n hlt).1
    · rw [hnil n hge]
      exact kwMatch_none_nil kwFacts_password
  have mkK : MaskedAt mKey l := by
    intro n
    left
    rcases Nat.lt_or_ge n l.length with hlt | hge
    · exact (hall n hlt).2.1
    · rw [hnil n hge]
      exact kwMatch_none_nil kwFacts_key
  have mkS : MaskedAt mSecret l := by
    intro n
    left
    rcases Nat.lt_or_ge n l.length with hlt | hge
    · exact (hall n hlt).2.2.1
    · rw [hnil n hge]
      exact kwMatch_none_nil kwFacts_secret
  have mkM : MaskedAt mMd5 l := by
    intro n
    left
    rcases Nat.lt_or_ge n l.length with hlt | hge
    · exact (hall n hlt).2.2.2.1
    · rw [hnil n hge]
      exact kwMatch_none_nil kwFacts_md5
  have mkC : MaskedAt mCommunity l := by
    intro n
    left
    rcases Nat.lt_or_ge n l.length with hlt | hge
    · exact (hall n hlt).2.2.2.2
    · rw [hnil n hge]
      exact kwMatch_none_nil kwFacts_community
  rw [subScan_eq_self _ mkP, subScan_eq_self _ mkK,
    subScan_eq_self _ mkS, subScan_eq_self _ mkM,
    subScan_eq_self _ mkC]

/-- C4: redaction is idempotent — masking already-masked output is a
no-op — and output in which none of the five sensitive patterns
(password, key, secret, md5 digest, community) matches anywhere is
returned unchanged. -/
theorem mask_sensitive_output_idempotent (x : String) :
    mask_sensitive_output (mask_sensitive_output x) =
      mask_sensitive_output x ∧
    (hasSensitiveMatch x.data = false →
      mask_sensitive_output x = x) := by
  constructor
  · exact congrArg String.mk (mask_idem_list x.data)
  · intro h
    exact congrArg String.mk (mask_nomatch_list x.data h)

/-- Witness for C4 at the empty string, which has no sensitive
match. -/
theorem mask_sensitive_output_idempotent_witness :
    mask_sensitive_output (mask_sensitive_output (String.mk [])) =
      mask_sensitive_output (String.mk []) ∧
    mask_sensitive_output (String.mk []) = String.mk [] :=
  ⟨(mask_sensitive_output_idempotent (String.mk [])).1,
   (mask_sensitive_output_idempotent (String.mk [])).2 (by decide)⟩

end CiscoMcp
